import Mathlib

/-!
Verification of the JSON repair/parse pipeline and the SSE stream decoder
of the n8n-nodes-solar repository.

The embedding works on `List Char`. JSON values are modelled by `JsonVal`;
`parseJson` models the ECMA-404 grammar accepted by `JSON.parse` (numbers are
kept as their source lexeme, object members are kept in textual order and
field lookup takes the last occurrence, matching JS property-assignment
semantics). `serV` models `JSON.stringify`. The repair functions mirror
`InformationExtractionUpstage.validateAndFixJsonStructure`,
`advancedJsonFix` and the surrounding `execute` logic; the SSE functions
mirror `UpstageDocumentChatModel._streamResponseChunks`.
-/

/-- Opening curly brace character. -/
def obr : Char := Char.ofNat 123

/-- Closing curly brace character. -/
def cbr : Char := Char.ofNat 125

/-- Opening square bracket character. -/
def obk : Char := '['

/-- Closing square bracket character. -/
def cbk : Char := ']'

/-- JSON insignificant whitespace (space, tab, line feed, carriage return). -/
def isJsonWs (c : Char) : Bool :=
  c == ' ' || c == '\t' || c == '\n' || c == '\r'

def skipWs (l : List Char) : List Char := l.dropWhile isJsonWs

/-- The JS regular-expression class `\s` (also the set trimmed by
`String.prototype.trim`). -/
def isJsWs (c : Char) : Bool :=
  c == ' ' || c == '\t' || c == '\n' || c.toNat == 11 || c.toNat == 12 ||
  c == '\r' || c.toNat == 0xa0 || c.toNat == 0x1680 ||
  (0x2000 ≤ c.toNat && c.toNat ≤ 0x200a) || c.toNat == 0x2028 ||
  c.toNat == 0x2029 || c.toNat == 0x202f || c.toNat == 0x205f ||
  c.toNat == 0x3000 || c.toNat == 0xfeff

/-- JS `s.trim()`. -/
def jsTrimL (l : List Char) : List Char :=
  ((l.dropWhile isJsWs).reverse.dropWhile isJsWs).reverse

/-- A JSON value as produced by `JSON.parse`.  Numbers keep their source
lexeme; object members are kept in textual order. -/
inductive JsonVal where
  | null : JsonVal
  | bool : Bool → JsonVal
  | num : List Char → JsonVal
  | str : List Char → JsonVal
  | arr : List JsonVal → JsonVal
  | obj : List (List Char × JsonVal) → JsonVal

/-- Hexadecimal digit value, as accepted in a `\uXXXX` escape. -/
def hexVal (c : Char) : Option Nat :=
  if '0' ≤ c && c ≤ '9' then some (c.toNat - 48)
  else if 'a' ≤ c && c ≤ 'f' then some (c.toNat - 87)
  else if 'A' ≤ c && c ≤ 'F' then some (c.toNat - 55)
  else none

/-- Decode a single-character string escape (everything except `\u`). -/
def escDecode (c : Char) : Option Char :=
  if c = '"' then some '"'
  else if c = '\\' then some '\\'
  else if c = '/' then some '/'
  else if c = 'b' then some (Char.ofNat 8)
  else if c = 'f' then some (Char.ofNat 12)
  else if c = 'n' then some '\n'
  else if c = 'r' then some '\r'
  else if c = 't' then some '\t'
  else none

/-- Parse the body of a JSON string literal (after the opening quote), up to
and including the closing quote.  Literal control characters are rejected,
as `JSON.parse` does. -/
def parseStringBodyGo : Nat → List Char → Option (List Char × List Char)
  | 0, _ => none
  | Nat.succ fuel, l =>
    match l with
    | [] => none
    | c :: rest =>
      if c = '"' then some ([], rest)
      else if c = '\\' then
        match rest with
        | [] => none
        | e :: rest2 =>
          if e = 'u' then
            match rest2 with
            | h1 :: h2 :: h3 :: h4 :: rest3 =>
              match hexVal h1, hexVal h2, hexVal h3, hexVal h4 with
              | some a, some b, some c2, some d =>
                (parseStringBodyGo fuel rest3).map
                  (fun p => (Char.ofNat (4096 * a + 256 * b + 16 * c2 + d) :: p.1, p.2))
              | _, _, _, _ => none
            | _ => none
          else
            match escDecode e with
            | some dc =>
              (parseStringBodyGo fuel rest2).map (fun p => (dc :: p.1, p.2))
            | none => none
      else if c.toNat < 32 then none
      else (parseStringBodyGo fuel rest).map (fun p => (c :: p.1, p.2))

def parseStringBody (l : List Char) : Option (List Char × List Char) :=
  parseStringBodyGo l.length l

def spanDigits (l : List Char) : List Char × List Char :=
  (l.takeWhile Char.isDigit, l.dropWhile Char.isDigit)

/-- Integer part of a JSON number: `0`, or a nonzero digit followed by
digits. -/
def lexIntPart : List Char → Option (List Char × List Char)
  | [] => none
  | c :: r =>
    if c = '0' then some (['0'], r)
    else if c.isDigit then some (c :: (spanDigits r).1, (spanDigits r).2)
    else none

/-- Optional exponent part of a JSON number, appended to `acc`. -/
def lexExpPart (acc : List Char) (l : List Char) :
    Option (List Char × List Char) :=
  match l with
  | [] => some (acc, [])
  | c :: r =>
    if c == 'e' || c == 'E' then
      match r with
      | [] => none
      | s :: r2 =>
        if s == '+' || s == '-' then
          match spanDigits r2 with
          | ([], _) => none
          | (ds, r3) => some (acc ++ c :: s :: ds, r3)
        else
          match spanDigits r with
          | ([], _) => none
          | (ds, r3) => some (acc ++ c :: ds, r3)
    else some (acc, c :: r)

/-- Optional fraction part then optional exponent part. -/
def lexFracExp (acc : List Char) (l : List Char) :
    Option (List Char × List Char) :=
  match l with
  | [] => lexExpPart acc []
  | c :: r =>
    if c = '.' then
      match spanDigits r with
      | ([], _) => none
      | (ds, r2) => lexExpPart (acc ++ '.' :: ds) r2
    else lexExpPart acc (c :: r)

/-- Lex a JSON number, returning its lexeme and the rest of the input. -/
def lexNumber (l : List Char) : Option (List Char × List Char) :=
  match l with
  | [] => none
  | c :: r =>
    if c = '-' then
      match lexIntPart r with
      | some (i, r1) => lexFracExp ('-' :: i) r1
      | none => none
    else
      match lexIntPart (c :: r) with
      | some (i, r1) => lexFracExp i r1
      | none => none

mutual

/-- Fueled recursive-descent parser for a JSON value.  `parseJson` supplies
enough fuel for any input. -/
def parseVal : Nat → List Char → Option (JsonVal × List Char)
  | 0, _ => none
  | Nat.succ fuel, l =>
    match skipWs l with
    | [] => none
    | c :: r =>
      if c = '"' then (parseStringBody r).map (fun p => (JsonVal.str p.1, p.2))
      else if c = obr then
        match skipWs r with
        | c2 :: r2 =>
          if c2 = cbr then some (JsonVal.obj [], r2)
          else (parseMembers fuel (c2 :: r2)).map
            (fun p => (JsonVal.obj p.1, p.2))
        | [] => none
      else if c = obk then
        match skipWs r with
        | c2 :: r2 =>
          if c2 = cbk then some (JsonVal.arr [], r2)
          else (parseElems fuel (c2 :: r2)).map
            (fun p => (JsonVal.arr p.1, p.2))
        | [] => none
      else if c = 'n' then
        (if r.take 3 = ['u', 'l', 'l'] then some (JsonVal.null, r.drop 3)
         else none)
      else if c = 't' then
        (if r.take 3 = ['r', 'u', 'e'] then some (JsonVal.bool true, r.drop 3)
         else none)
      else if c = 'f' then
        (if r.take 4 = ['a', 'l', 's', 'e'] then
          some (JsonVal.bool false, r.drop 4)
         else none)
      else if c == '-' || c.isDigit then
        (lexNumber (c :: r)).map (fun p => (JsonVal.num p.1, p.2))
      else none

/-- Parse the members of a nonempty JSON object, up to and including the
closing brace. -/
def parseMembers : Nat → List Char → Option (List (List Char × JsonVal) × List Char)
  | 0, _ => none
  | Nat.succ fuel, l =>
    match skipWs l with
    | [] => none
    | c :: r =>
      if c = '"' then
        match parseStringBody r with
        | none => none
        | some (k, r1) =>
          match skipWs r1 with
          | [] => none
          | c1 :: r2 =>
            if c1 = ':' then
              match parseVal fuel r2 with
              | none => none
              | some (v, r3) =>
                match skipWs r3 with
                | [] => none
                | c2 :: r4 =>
                  if c2 = ',' then
                    (parseMembers fuel r4).map (fun p => ((k, v) :: p.1, p.2))
                  else if c2 = cbr then some ([(k, v)], r4)
                  else none
            else none
      else none

/-- Parse the elements of a nonempty JSON array, up to and including the
closing bracket. -/
def parseElems : Nat → List Char → Option (List JsonVal × List Char)
  | 0, _ => none
  | Nat.succ fuel, l =>
    match parseVal fuel l with
    | none => none
    | some (v, r) =>
      match skipWs r with
      | [] => none
      | c :: r2 =>
        if c = ',' then (parseElems fuel r2).map (fun p => (v :: p.1, p.2))
        else if c = cbk then some ([v], r2)
        else none

end

/-- Model of `JSON.parse`: the whole input must be consumed (up to trailing
whitespace), otherwise the parse fails. -/
def parseJson (l : List Char) : Option JsonVal :=
  match parseVal (l.length + 2) l with
  | some (v, rest) => if skipWs rest = [] then some v else none
  | none => none

/-- Lowercase hexadecimal digit, as emitted by `JSON.stringify`. -/
def hexCh (n : Nat) : Char :=
  if n < 10 then Char.ofNat (48 + n) else Char.ofNat (87 + n)

/-- Escape one character of a string, as `JSON.stringify` does: quote,
backslash and control characters are escaped, everything else is emitted
unchanged. -/
def escChar (c : Char) : List Char :=
  if c = '"' then ['\\', '"']
  else if c = '\\' then ['\\', '\\']
  else if c.toNat = 8 then ['\\', 'b']
  else if c.toNat = 9 then ['\\', 't']
  else if c.toNat = 10 then ['\\', 'n']
  else if c.toNat = 12 then ['\\', 'f']
  else if c.toNat = 13 then ['\\', 'r']
  else if c.toNat < 32 then
    ['\\', 'u', '0', '0', hexCh (c.toNat / 16), hexCh (c.toNat % 16)]
  else [c]

def escBody : List Char → List Char
  | [] => []
  | c :: r => escChar c ++ escBody r

mutual

/-- Model of `JSON.stringify` (compact form, no indentation). -/
def serV : JsonVal → List Char
  | JsonVal.null => ['n', 'u', 'l', 'l']
  | JsonVal.bool true => ['t', 'r', 'u', 'e']
  | JsonVal.bool false => ['f', 'a', 'l', 's', 'e']
  | JsonVal.num l => l
  | JsonVal.str s => '"' :: escBody s ++ ['"']
  | JsonVal.arr es => obk :: serElems es ++ [cbk]
  | JsonVal.obj ms => obr :: serMems ms ++ [cbr]

def serElems : List JsonVal → List Char
  | [] => []
  | [x] => serV x
  | x :: xs => serV x ++ ',' :: serElems xs

def serMems : List (List Char × JsonVal) → List Char
  | [] => []
  | [m] => serMem m
  | m :: xs => serMem m ++ ',' :: serMems xs

def serMem : List Char × JsonVal → List Char
  | (k, v) => '"' :: escBody k ++ '"' :: ':' :: serV v

end

/-- Last-occurrence lookup in an object member list, matching the value a JS
object ends up with after repeated property assignment. -/
def lookupLast : List (List Char × JsonVal) → List Char → Option JsonVal
  | [], _ => none
  | (k, v) :: rest, key =>
    match lookupLast rest key with
    | some w => some w
    | none => if k = key then some v else none

/-- JS property access `v.k` on a parsed JSON value: `undefined` (here
`none`) unless `v` is an object with that key. -/
def getField (v : JsonVal) (k : List Char) : Option JsonVal :=
  match v with
  | JsonVal.obj ms => lookupLast ms k
  | _ => none

/-- The significand digits of a number lexeme (everything before the
exponent marker). -/
def numMantissa (l : List Char) : List Char :=
  l.takeWhile (fun c => !(c == 'e' || c == 'E'))

/-- JS truthiness of a parsed JSON value. -/
def jsTruthy : JsonVal → Bool
  | JsonVal.null => false
  | JsonVal.bool b => b
  | JsonVal.str s => !s.isEmpty
  | JsonVal.num l => (numMantissa l).any (fun c => c.isDigit && c != '0')
  | JsonVal.arr _ => true
  | JsonVal.obj _ => true

/-- JS truthiness where `none` models `undefined`. -/
def truthyO : Option JsonVal → Bool
  | none => false
  | some v => jsTruthy v

/-- `typeof v === 'object' && v !== null`. -/
def isObjLike : JsonVal → Bool
  | JsonVal.obj _ => true
  | JsonVal.arr _ => true
  | _ => false

/-! ## The JSON repair pipeline of `InformationExtractionUpstage` -/

/-- Zero-width characters removed by the cleansing stage:
`/[​-‍﻿]/g`. -/
def isZeroWidth (c : Char) : Bool :=
  (0x200b ≤ c.toNat && c.toNat ≤ 0x200d) || c.toNat == 0xfeff

/-- `.replace(/\r\n/g, '\n')`.  Fueled scan; `l.length` fuel is always
sufficient since every step consumes at least one character. -/
def crlfToLfGo : Nat → List Char → List Char
  | 0, l => l
  | Nat.succ fuel, l =>
    match l with
    | [] => []
    | c :: rest =>
      if c = '\r' then
        match rest with
        | [] => ['\r']
        | c2 :: rest2 =>
          if c2 = '\n' then '\n' :: crlfToLfGo fuel rest2
          else '\r' :: crlfToLfGo fuel (c2 :: rest2)
      else c :: crlfToLfGo fuel rest

def crlfToLf (l : List Char) : List Char := crlfToLfGo l.length l

/-- Step 1 of the pipeline: `.trim()`, remove zero-width characters,
normalise Windows then Mac line endings. -/
def cleanse (l : List Char) : List Char :=
  (crlfToLf ((jsTrimL l).filter (fun c => !isZeroWidth c))).map
    (fun c => if c = '\r' then '\n' else c)

/-- The JSON structural characters of the compression regexes:
`[{}[\]":,]`. -/
def isStructCh (c : Char) : Bool :=
  c == obr || c == cbr || c == obk || c == cbk || c == '"' || c == ':' ||
  c == ','

/-- `.replace(/\s+/g, ' ')`: every maximal whitespace run becomes one
space.  Fueled scan; `l.length` fuel is always sufficient since every step
consumes at least one character. -/
def collapseWsGo : Nat → List Char → List Char
  | 0, l => l
  | Nat.succ fuel, l =>
    match l with
    | [] => []
    | c :: cs =>
      if isJsWs c then ' ' :: collapseWsGo fuel (cs.dropWhile isJsWs)
      else c :: collapseWsGo fuel cs

def collapseWs (l : List Char) : List Char := collapseWsGo l.length l

/-- `.replace(/\s*([{}[\]":,])/g, '$1')`: drop every whitespace run that
immediately precedes a structural character. -/
def stripWsBeforeGo : Nat → List Char → List Char
  | 0, l => l
  | Nat.succ fuel, l =>
    match l with
    | [] => []
    | c :: cs =>
      if isStructCh c then c :: stripWsBeforeGo fuel cs
      else if isJsWs c then
        match cs.dropWhile isJsWs with
        | [] => c :: cs
        | d :: ds =>
          if isStructCh d then d :: stripWsBeforeGo fuel ds
          else (c :: cs.takeWhile isJsWs) ++ d :: stripWsBeforeGo fuel ds
      else c :: stripWsBeforeGo fuel cs

def stripWsBefore (l : List Char) : List Char := stripWsBeforeGo l.length l

/-- `.replace(/([{}[\]":,])\s*/g, '$1')`: drop every whitespace run that
immediately follows a structural character. -/
def stripWsAfterGo : Nat → List Char → List Char
  | 0, l => l
  | Nat.succ fuel, l =>
    match l with
    | [] => []
    | c :: cs =>
      if isStructCh c then c :: stripWsAfterGo fuel (cs.dropWhile isJsWs)
      else c :: stripWsAfterGo fuel cs

def stripWsAfter (l : List Char) : List Char := stripWsAfterGo l.length l

/-- Step 3 of the pipeline (compression normalisation): remove all line
feeds, collapse whitespace runs, strip whitespace around structural
characters, final trim. -/
def compressStage (l : List Char) : List Char :=
  jsTrimL (stripWsAfter (stripWsBefore (collapseWs
    (l.filter (fun c => !(c == '\n'))))))

/-- JS `str.replace(/x+$/, x.repeat(n))` for a single character `x`: if the
string ends with `x`, its maximal trailing run of `x` is replaced by `n`
copies; otherwise the string is unchanged. -/
def replaceTrailingRun (x : Char) (n : Nat) (l : List Char) : List Char :=
  if l.getLast? = some x then
    (l.reverse.dropWhile (· == x)).reverse ++ List.replicate n x
  else l

/-- Brace balancing of `validateAndFixJsonStructure`: append the missing
closing braces, or replace the trailing run of closing braces by as many
closing braces as there are opening ones. -/
def fixBraces (l : List Char) : List Char :=
  let o := l.count obr
  let c := l.count cbr
  if o > c then l ++ List.replicate (o - c) cbr
  else if c > o then replaceTrailingRun cbr o l
  else l

/-- Bracket balancing of `validateAndFixJsonStructure`, applied after the
brace balancing. -/
def fixBrackets (l : List Char) : List Char :=
  let o := l.count obk
  let c := l.count cbk
  if o > c then l ++ List.replicate (o - c) cbk
  else if c > o then replaceTrailingRun cbk o l
  else l

/-- The literal `"properties":` followed by an opening brace. -/
def propsKey : List Char := ("\"properties\":\x7b").data

/-- Try to match `("properties":\x7b[^\x7d]*)\x7d\x7d\x7d\x7d` at the head
of the input; on success return the replacement `$1\x7d\x7d\x7d` and the
input remaining after the match. -/
def propsTry (l : List Char) : Option (List Char × List Char) :=
  if propsKey.isPrefixOf l then
    let after := l.drop propsKey.length
    let body := after.takeWhile (· ≠ cbr)
    let rest := after.dropWhile (· ≠ cbr)
    if rest.take 4 = [cbr, cbr, cbr, cbr] then
      some (propsKey ++ body ++ [cbr, cbr, cbr], rest.drop 4)
    else none
  else none

/-- Global replacement for the `propertiesPattern` regex of
`advancedJsonFix` (a replacement with no matches is the identity, so the
`.test` guard of the source is redundant).  Fueled scan; the fuel
`l.length` is always sufficient since every step consumes at least one
character. -/
def propsFixGo : Nat → List Char → List Char
  | 0, l => l
  | Nat.succ fuel, l =>
    match l with
    | [] => []
    | c :: cs =>
      match propsTry (c :: cs) with
      | some (repl, rest) => repl ++ propsFixGo fuel rest
      | none => c :: propsFixGo fuel cs

def propsFixAll (l : List Char) : List Char := propsFixGo l.length l

/-- `.replace(/\}\}\}+/g, ...)` of `advancedJsonFix`: every run of three or
more consecutive closing braces is collapsed to exactly two. -/
def collapseBraceRunsGo : Nat → List Char → List Char
  | 0, l => l
  | Nat.succ fuel, l =>
    match l with
    | [] => []
    | c :: cs =>
      if c = cbr then
        (if 2 ≤ (cs.takeWhile (· == cbr)).length then [cbr, cbr]
         else c :: cs.takeWhile (· == cbr)) ++
          collapseBraceRunsGo fuel (cs.dropWhile (· == cbr))
      else c :: collapseBraceRunsGo fuel cs

def collapseBraceRuns (l : List Char) : List Char :=
  collapseBraceRunsGo l.length l

/-- `InformationExtractionUpstage.advancedJsonFix`. -/
def advancedJsonFix (l : List Char) : List Char :=
  collapseBraceRuns (propsFixAll l)

/-- `InformationExtractionUpstage.validateAndFixJsonStructure`: balance
braces and brackets, accept if the result parses; otherwise try
`advancedJsonFix`; if that still fails, return the original argument. -/
def validateAndFixJsonStructure (jsonString : List Char) : List Char :=
  match parseJson (fixBrackets (fixBraces jsonString)) with
  | some _ => fixBrackets (fixBraces jsonString)
  | none =>
    match parseJson (advancedJsonFix (fixBrackets (fixBraces jsonString))) with
    | some _ => advancedJsonFix (fixBrackets (fixBraces jsonString))
    | none => jsonString

/-- Which stage of the pipeline produced the parse (mirroring the
diagnostic logging of the source). -/
inductive Stage where
  | direct : Stage
  | repaired : Stage
deriving DecidableEq

/-- The repair pipeline of the Full Response Format branch of
`InformationExtractionUpstage.execute`: cleanse, try a direct parse, and on
failure compress, repair and parse the repaired string.  `none` models the
`JSON.parse` exception reaching the surrounding catch. -/
def repairPipeline (l : List Char) : Option (Stage × JsonVal) :=
  match parseJson (cleanse l) with
  | some v => some (Stage.direct, v)
  | none =>
    match parseJson (validateAndFixJsonStructure (compressStage (cleanse l))) with
    | some v => some (Stage.repaired, v)
    | none => none

/-- How the `fullResponseFormat` node parameter can arrive: a string, a
non-null JS object (which includes arrays), or anything else. -/
inductive FFParam where
  | pstr : List Char → FFParam
  | pobj : JsonVal → FFParam
  | pother : FFParam

/-- The error taxonomy of the Full Response Format branch. -/
inductive FFErr where
  | parseFailed : FFErr
  | notObject : FFErr
  | missingFields : FFErr
  | invalidParamType : FFErr
deriving DecidableEq

/-- The Full Response Format branch of `execute` (lines 267-325): strings go
through the repair pipeline followed by the object and required-field
checks; objects are used directly with no validation; other types are
rejected. -/
def processFullResponseFormat : FFParam → Except FFErr JsonVal
  | FFParam.pstr s =>
    match repairPipeline s with
    | none => Except.error FFErr.parseFailed
    | some (_, v) =>
      if !isObjLike v then Except.error FFErr.notObject
      else if !(truthyO (getField v ("type").data) &&
                truthyO (getField v ("json_schema").data)) then
        Except.error FFErr.missingFields
      else Except.ok v
  | FFParam.pobj v => Except.ok v
  | FFParam.pother => Except.error FFErr.invalidParamType

/-! ## The SSE chunk decoder of `UpstageDocumentChatModel` -/

/-- JS `s.split('\n')`. -/
def splitNl : List Char → List (List Char)
  | [] => [[]]
  | c :: cs =>
    if c = '\n' then [] :: splitNl cs
    else
      match splitNl cs with
      | h :: t => (c :: h) :: t
      | [] => [[c]]

def dataPref : List Char := ("data: ").data

def eventPref : List Char := ("event:").data

def donePayload : List Char := ("[DONE]").data

def outputTypeStr : List Char := ("response.output_text.delta").data

def reasoningTypeStr : List Char :=
  ("response.reasoning_summary_text.delta").data

/-- The JS strict comparison `v.type === t` for a string literal `t`. -/
def typeIs (v : JsonVal) (t : List Char) : Bool :=
  match getField v ("type").data with
  | some (JsonVal.str s) => s == t
  | _ => false

/-- Process one complete SSE line, returning the delta to emit, if any
(lines 447-506 of the source): blank lines, `event:` lines, non-`data: `
lines, the `[DONE]` sentinel and unparseable payloads are skipped; an
`output_text` delta event with a truthy delta is emitted; a
`reasoning_summary_text` delta event is logged only and never emitted. -/
def processLine (line : List Char) : Option JsonVal :=
  if jsTrimL line = [] then none
  else if eventPref.isPrefixOf line then none
  else if !(dataPref.isPrefixOf line) then none
  else
    let jsonStr := jsTrimL (line.drop 6)
    if jsonStr = donePayload then none
    else
      match parseJson jsonStr with
      | none => none
      | some data =>
        let deltaText : Option JsonVal :=
          if typeIs data outputTypeStr &&
             truthyO (getField data ("delta").data) then
            getField data ("delta").data
          else none
        deltaText

/-- The chunk loop of `_streamResponseChunks`: append the chunk to the
pending buffer, split on line feeds, keep the final fragment as the new
buffer, process the complete lines; the trailing buffer is discarded when
the stream ends. -/
def decodeLoop (buffer : List Char) : List (List Char) → List JsonVal
  | [] => []
  | c :: cs =>
    let parts := splitNl (buffer ++ c)
    (parts.dropLast.filterMap processLine) ++
      decodeLoop ((parts.getLast?).getD []) cs

/-- The SSE decoder on a finite sequence of (already text-decoded)
chunks. -/
def decodeStream (chunks : List (List Char)) : List JsonVal :=
  decodeLoop [] chunks

/-- The complete lines of a chunk sequence: everything before the last line
fragment of the concatenated stream. -/
def completeLines (chunks : List (List Char)) : List (List Char) :=
  (splitNl chunks.flatten).dropLast

/-- Modelled from the spec (section 4.2, step 6a and section 8): the
user-visible text extraction, written from the spec's words for the
refinement comparison of claim C5 — from each `data: ` line whose payload
parses and is an `output_text` delta event with a non-empty delta, that
delta; nothing from any other line. -/
def specOutputDelta (l : List Char) : Option JsonVal :=
  if dataPref.isPrefixOf l then
    match parseJson (jsTrimL (l.drop 6)) with
    | some v =>
      if typeIs v outputTypeStr && truthyO (getField v ("delta").data) then
        getField v ("delta").data
      else none
    | none => none
  else none

/-! ## Resource model for the reader lock (claim C8) -/

/-- One read from the underlying byte stream: a successful chunk, or a
transport error that propagates. -/
inductive ReadStep where
  | chunkR : List Char → ReadStep
  | errR : ReadStep

/-- Observable events of one run of the SSE decoding loop. -/
inductive SseEv where
  | readEv : SseEv
  | emitEv : JsonVal → SseEv
  | doneExit : SseEv
  | errExit : SseEv
  | cancelExit : SseEv
  | releaseEv : SseEv

def isRelease : SseEv → Bool
  | SseEv.releaseEv => true
  | _ => false

/-- Emit deltas while the caller still consumes them; `budget = some n`
models a caller that cancels the generator after consuming `n` further
chunks (the cancellation path), `none` a caller that consumes
everything.  Returns the emitted events, the remaining budget, and whether
the caller cancelled. -/
def emitBudget (b : Option Nat) : List JsonVal → List SseEv × Option Nat × Bool
  | [] => ([], b, false)
  | d :: ds =>
    match b with
    | none =>
      match emitBudget none ds with
      | (evs, b2, fl) => (SseEv.emitEv d :: evs, b2, fl)
    | some 0 => ([], some 0, true)
    | some (n + 1) =>
      match emitBudget (some n) ds with
      | (evs, b2, fl) => (SseEv.emitEv d :: evs, b2, fl)

/-- The body of the `try` block: read chunks, emit deltas, stop on the end
of the stream, on a transport error, or when the caller cancels. -/
def sseLoop (buffer : List Char) (budget : Option Nat) :
    List ReadStep → List SseEv
  | [] => [SseEv.doneExit]
  | ReadStep.errR :: _ => [SseEv.readEv, SseEv.errExit]
  | ReadStep.chunkR c :: rest =>
    match emitBudget budget
        (((splitNl (buffer ++ c)).dropLast).filterMap processLine) with
    | (evs, _, true) => SseEv.readEv :: evs ++ [SseEv.cancelExit]
    | (evs, b2, false) =>
      SseEv.readEv :: evs ++
        sseLoop (((splitNl (buffer ++ c)).getLast?).getD []) b2 rest

/-- The whole `try`/`finally` of `_streamResponseChunks`: whatever way the
loop body exits, `reader.releaseLock()` runs last. -/
def sseRunTrace (reads : List ReadStep) (budget : Option Nat) : List SseEv :=
  sseLoop [] budget reads ++ [SseEv.releaseEv]

/-- The segment kept as pending buffer after splitting. -/
def lastSeg (l : List Char) : List Char := ((splitNl l).getLast?).getD []

/-! ## Claims C1 and C5-C8: the SSE decoder -/

/-- A stream chunk holding exactly one reasoning-summary delta event with a
non-empty delta. -/
def c1Chunk : List Char :=
  ("data: \x7b\"type\":\"response.reasoning_summary_text.delta\",\"delta\":\"hi\"\x7d\n").data

/-- A mixed stream: an output-text delta, a reasoning-summary delta, then
another output-text delta. -/
def c5Chunk : List Char :=
  ("data: \x7b\"type\":\"response.output_text.delta\",\"delta\":\"A\"\x7d\n"
   ++ "data: \x7b\"type\":\"response.reasoning_summary_text.delta\",\"delta\":\"r\"\x7d\n"
   ++ "data: \x7b\"type\":\"response.output_text.delta\",\"delta\":\"B\"\x7d\n").data

def c6Line1 : List Char :=
  ("data: \x7b\"type\":\"response.output_text.delta\",\"delta\":\"A\"\x7d").data

def c6LineBad : List Char := ("data: \x7bnot json").data

def c6Line2 : List Char :=
  ("data: \x7b\"type\":\"response.output_text.delta\",\"delta\":\"B\"\x7d").data

/-- The complete SSE line carrying the `[DONE]` sentinel. -/
def doneLine : List Char := dataPref ++ donePayload

def c10Str : List Char := ("\x7b\"type\":\"\",\"json_schema\":\x7b\x7d\x7d").data

def c10Val : JsonVal :=
  JsonVal.obj [(("type").data, JsonVal.str []), (("json_schema").data, JsonVal.obj [])]

/-! ## Claim C4: brace/bracket balancing -/

def c4Ex : List Char := ("\x7b\x7d\x7dx").data

def c4Base : List Char :=
  ("\x7b\"type\":\"json_schema\",\"json_schema\":\x7b\"name\":\"x\",\"schema\":\x7b\x7d\x7d\x7d").data

def c4Missing : List Char :=
  ("\x7b\"type\":\"json_schema\",\"json_schema\":\x7b\"name\":\"x\",\"schema\":\x7b\x7d\x7d").data

def c4Val : JsonVal :=
  JsonVal.obj
    [(("type").data, JsonVal.str ("json_schema").data),
     (("json_schema").data,
      JsonVal.obj
        [(("name").data, JsonVal.str ("x").data),
         (("schema").data, JsonVal.obj [])])]

/-! ## Claims C2 and C3: ordering and fallback of the repair pipeline -/

/-- A schema string with a literal line feed inside a string literal (so
the direct parse fails) whose compression is valid JSON with unbalanced
brace counts (braces inside string literals). -/
def c2Input : List Char := ("\x7b\"a\":\"\x7b\n\",\"b\":\"\x7d\x7d\"\x7d").data

def c2Val : JsonVal :=
  JsonVal.obj
    [(("a").data, JsonVal.str [obr]), (("b").data, JsonVal.str [cbr, cbr])]

/-- An input on which every stage fails: cleansing trims it, compression
leaves `\x7ba`, balancing appends a closing brace that still does not
parse, and the advanced fix does nothing. -/
def c3Input : List Char := (" \x7ba").data

mutual

/-- Values in the range of the parser: number lexemes re-lex to themselves,
consuming the whole lexeme. -/
def wfVal : JsonVal → Bool
  | JsonVal.null => true
  | JsonVal.bool _ => true
  | JsonVal.num l => lexNumber l == some (l, [])
  | JsonVal.str _ => true
  | JsonVal.arr es => wfElems es
  | JsonVal.obj ms => wfMems ms

def wfElems : List JsonVal → Bool
  | [] => true
  | v :: vs => wfVal v && wfElems vs

def wfMems : List (List Char × JsonVal) → Bool
  | [] => true
  | m :: ms => wfVal m.2 && wfMems ms

end

mutual

/-- Fuel needed by the parser on the serialization of a value. -/
def needV : JsonVal → Nat
  | JsonVal.arr es => needEs es + 1
  | JsonVal.obj ms => needMs ms + 1
  | _ => 1

def needEs : List JsonVal → Nat
  | [] => 1
  | v :: vs => max (needV v) (needEs vs) + 1

def needMs : List (List Char × JsonVal) → Nat
  | [] => 1
  | m :: ms => max (needV m.2) (needMs ms) + 1

end

/-- What may legally follow a serialized value inside a serialization. -/
def goodFollow : List Char → Bool
  | [] => true
  | c :: _ => c == ',' || c == cbr || c == cbk

/-- The head cannot extend a complete number lexeme. -/
def noExt : List Char → Bool
  | [] => true
  | c :: _ => !(c.isDigit || c == '.' || c == 'e' || c == 'E')

def headDigit : List Char → Bool
  | [] => false
  | c :: _ => c.isDigit

/-- Characters that can occur in a number lexeme. -/
def numChar (c : Char) : Bool :=
  c.isDigit || c == '+' || c == '-' || c == '.' || c == 'e' || c == 'E'

/-! ## Lemmas about the SSE decoder -/

/-- The object branch of a `parseVal` step, applied to the
whitespace-skipped input after the opening brace. -/
def objBody (fuel : Nat) : List Char → Option (JsonVal × List Char)
  | c2 :: r2 =>
    if c2 = cbr then some (JsonVal.obj [], r2)
    else (parseMembers fuel (c2 :: r2)).map (fun p => (JsonVal.obj p.1, p.2))
  | [] => none

/-- The array branch of a `parseVal` step, applied to the
whitespace-skipped input after the opening bracket. -/
def arrBody (fuel : Nat) : List Char → Option (JsonVal × List Char)
  | c2 :: r2 =>
    if c2 = cbk then some (JsonVal.arr [], r2)
    else (parseElems fuel (c2 :: r2)).map (fun p => (JsonVal.arr p.1, p.2))
  | [] => none

/-- The body of a `parseVal` step, applied to the whitespace-skipped
input. -/
def parseValCore (fuel : Nat) : List Char → Option (JsonVal × List Char)
  | [] => none
  | c :: r =>
    if c = '"' then (parseStringBody r).map (fun p => (JsonVal.str p.1, p.2))
    else if c = obr then objBody fuel (skipWs r)
    else if c = obk then arrBody fuel (skipWs r)
    else if c = 'n' then
      (if r.take 3 = ['u', 'l', 'l'] then some (JsonVal.null, r.drop 3)
       else none)
    else if c = 't' then
      (if r.take 3 = ['r', 'u', 'e'] then some (JsonVal.bool true, r.drop 3)
       else none)
    else if c = 'f' then
      (if r.take 4 = ['a', 'l', 's', 'e'] then
        some (JsonVal.bool false, r.drop 4)
       else none)
    else if c == '-' || c.isDigit then
      (lexNumber (c :: r)).map (fun p => (JsonVal.num p.1, p.2))
    else none

/-- A `parseMembers` step after the member value: expects a comma or the
closing brace on the whitespace-skipped remainder. -/
def afterVal (fuel : Nat) (k : List Char) (v : JsonVal) :
    List Char → Option (List (List Char × JsonVal) × List Char)
  | [] => none
  | c2 :: r4 =>
    if c2 = ',' then
      (parseMembers fuel r4).map (fun p => ((k, v) :: p.1, p.2))
    else if c2 = cbr then some ([(k, v)], r4)
    else none

/-- A `parseMembers` step after the colon, applied to the result of
parsing the member value. -/
def afterColon (fuel : Nat) (k : List Char) :
    Option (JsonVal × List Char) →
      Option (List (List Char × JsonVal) × List Char)
  | none => none
  | some (v, r3) => afterVal fuel k v (skipWs r3)

/-- A `parseMembers` step after the member key: expects a colon on the
whitespace-skipped remainder. -/
def afterKey (fuel : Nat) (k : List Char) :
    List Char → Option (List (List Char × JsonVal) × List Char)
  | [] => none
  | c1 :: r2 =>
    if c1 = ':' then afterColon fuel k (parseVal fuel r2) else none

/-- A `parseMembers` step applied to the result of parsing the member
key. -/
def matchKey (fuel : Nat) :
    Option (List Char × List Char) →
      Option (List (List Char × JsonVal) × List Char)
  | none => none
  | some (k, r1) => afterKey fuel k (skipWs r1)

/-- The body of a `parseMembers` step, applied to the whitespace-skipped
input. -/
def parseMembersCore (fuel : Nat) :
    List Char → Option (List (List Char × JsonVal) × List Char)
  | [] => none
  | c :: r =>
    if c = '"' then matchKey fuel (parseStringBody r) else none

/-- A `parseElems` step after an element value: expects a comma or the
closing bracket on the whitespace-skipped remainder. -/
def elemsAfter (fuel : Nat) (v : JsonVal) :
    List Char → Option (List JsonVal × List Char)
  | [] => none
  | c :: r2 =>
    if c = ',' then (parseElems fuel r2).map (fun p => (v :: p.1, p.2))
    else if c = cbk then some ([v], r2)
    else none

/-- The body of a `parseElems` step, applied to the result of parsing the
first element. -/
def elemsStep (fuel : Nat) :
    Option (JsonVal × List Char) → Option (List JsonVal × List Char)
  | none => none
  | some (v, r) => elemsAfter fuel v (skipWs r)


/-- The C9 counterexample input: a full-response-format object whose
`json_schema` string consists of one zero-width space, written with a
`\u` escape so that the cleansing stage does not touch it. -/
def c9Input : List Char :=
  ("\x7b\"type\":\"json_schema\",\"json_schema\":\"\\u200B\"\x7d").data

/-- The value the pipeline parses `c9Input` into. -/
def c9Val : JsonVal :=
  JsonVal.obj [(("type").data, JsonVal.str ("json_schema").data),
    (("json_schema").data, JsonVal.str [Char.ofNat 0x200b])]

theorem splitNl_ne_nil (l : List Char) : splitNl l ≠ [] := by
  cases l with
  | nil => simp [splitNl]
  | cons c cs =>
    simp only [splitNl]
    split
    · simp
    · split <;> simp

theorem noNl_splitNl {l : List Char} (h : '\n' ∉ l) : splitNl l = [l] := by
  induction l with
  | nil => rfl
  | cons c cs ih =>
    have hc : ¬ c = '\n' := fun hc => h (hc ▸ List.mem_cons_self c cs)
    have hcs : '\n' ∉ cs := fun hm => h (List.mem_cons_of_mem c hm)
    simp only [splitNl, if_neg hc, ih hcs]

theorem splitNl_mem_noNl :
    ∀ (l : List Char), ∀ s ∈ splitNl l, '\n' ∉ s := by
  intro l
  induction l with
  | nil =>
    intro s hs
    simp only [splitNl, List.mem_singleton] at hs
    simp [hs]
  | cons c cs ih =>
    intro s hs
    simp only [splitNl] at hs
    by_cases hc : c = '\n'
    · rw [if_pos hc] at hs
      rcases List.mem_cons.mp hs with h | h
      · simp [h]
      · exact ih s h
    · rw [if_neg hc] at hs
      rcases hsp : splitNl cs with _ | ⟨h0, t0⟩
      · exact absurd hsp (splitNl_ne_nil cs)
      · rw [hsp] at hs
        rcases List.mem_cons.mp hs with h | h
        · subst h
          intro hmem
          rcases List.mem_cons.mp hmem with h | h
          · exact hc h.symm
          · exact ih h0 (hsp ▸ List.mem_cons_self h0 t0) h
        · exact ih s (hsp ▸ List.mem_cons_of_mem h0 h)

theorem noNl_lastSeg (l : List Char) : '\n' ∉ lastSeg l := by
  unfold lastSeg
  rcases h : (splitNl l).getLast? with _ | s
  · simp
  · simp only [Option.getD_some]
    rcases List.getLast?_eq_some_iff.mp h with ⟨ys, hys⟩
    exact splitNl_mem_noNl l s (hys ▸ List.mem_append_right ys (List.mem_singleton_self s))

theorem splitNl_append (a b : List Char) :
    splitNl (a ++ b) =
      (splitNl a).dropLast ++ (splitNl b).modifyHead (fun h => lastSeg a ++ h) := by
  induction a with
  | nil =>
    simp only [List.nil_append, splitNl, List.dropLast_single, List.nil_append]
    show splitNl b = (splitNl b).modifyHead (fun h => lastSeg [] ++ h)
    have : lastSeg [] = [] := rfl
    rw [this]
    cases splitNl b <;> simp
  | cons c a' ih =>
    by_cases hc : c = '\n'
    · subst hc
      have h1 : splitNl ('\n' :: a' ++ b) = [] :: splitNl (a' ++ b) := by
        simp [splitNl]
      have h2 : splitNl ('\n' :: a') = [] :: splitNl a' := by
        simp [splitNl]
      have h3 : lastSeg ('\n' :: a') = lastSeg a' := by
        unfold lastSeg
        rw [h2]
        rcases hsp : splitNl a' with _ | ⟨h0, t0⟩
        · exact absurd hsp (splitNl_ne_nil a')
        · simp
      rw [h1, h2, ih, h3, List.dropLast_cons_of_ne_nil (splitNl_ne_nil a')]
      simp
    · rcases hsp : splitNl a' with _ | ⟨h0, t0⟩
      · exact absurd hsp (splitNl_ne_nil a')
      · have h2 : splitNl (c :: a') = (c :: h0) :: t0 := by
          simp only [splitNl, if_neg hc, hsp]
        have h1 : splitNl (c :: a' ++ b) =
            (splitNl (a' ++ b)).modifyHead (fun h => c :: h) := by
          simp only [List.cons_append, splitNl, if_neg hc]
          rcases hsp2 : splitNl (a' ++ b) with _ | ⟨h1, t1⟩
          · exact absurd hsp2 (splitNl_ne_nil (a' ++ b))
          · simp
        rw [h1, ih, hsp]
        cases t0 with
        | nil =>
          have h3 : lastSeg (c :: a') = c :: h0 := by
            unfold lastSeg
            rw [h2]
            simp
          have h4 : lastSeg a' = h0 := by
            unfold lastSeg
            rw [hsp]
            simp
          rw [h2, h3, h4]
          simp only [List.dropLast_single, List.nil_append]
          rcases hb : splitNl b with _ | ⟨hb0, tb0⟩
          · exact absurd hb (splitNl_ne_nil b)
          · simp
        | cons t0h t0t =>
          have h3 : lastSeg (c :: a') = lastSeg a' := by
            unfold lastSeg
            rw [h2, hsp]
            simp
          rw [h2, h3, List.dropLast_cons_of_ne_nil (List.cons_ne_nil t0h t0t),
            List.dropLast_cons_of_ne_nil (List.cons_ne_nil t0h t0t)]
          simp

theorem splitNl_append_lastSeg (a b : List Char) :
    splitNl (a ++ b) = (splitNl a).dropLast ++ splitNl (lastSeg a ++ b) := by
  have h1 : splitNl (lastSeg a) = [lastSeg a] := noNl_splitNl (noNl_lastSeg a)
  have hfix : lastSeg (lastSeg a) = lastSeg a := by
    show ((splitNl (lastSeg a)).getLast?).getD [] = lastSeg a
    rw [h1]
    rfl
  rw [splitNl_append a b, splitNl_append (lastSeg a) b, h1]
  simp only [hfix, List.dropLast_single, List.nil_append]

theorem decodeLoop_eq :
    ∀ (chunks : List (List Char)) (buffer : List Char), '\n' ∉ buffer →
      decodeLoop buffer chunks =
        ((splitNl (buffer ++ chunks.flatten)).dropLast).filterMap processLine := by
  intro chunks
  induction chunks with
  | nil =>
    intro buffer hb
    simp only [decodeLoop, List.flatten_nil, List.append_nil,
      noNl_splitNl hb, List.dropLast_single, List.filterMap_nil]
  | cons c cs ih =>
    intro buffer hb
    simp only [decodeLoop, List.flatten_cons]
    have hassoc : buffer ++ (c ++ cs.flatten) = (buffer ++ c) ++ cs.flatten := by
      simp
    rw [hassoc, splitNl_append_lastSeg (buffer ++ c) cs.flatten,
      List.dropLast_append_of_ne_nil _ (splitNl_ne_nil _),
      List.filterMap_append]
    have hlast : ((splitNl (buffer ++ c)).getLast?).getD [] = lastSeg (buffer ++ c) := rfl
    rw [hlast, ih (lastSeg (buffer ++ c)) (noNl_lastSeg (buffer ++ c))]

theorem decodeStream_eq_completeLines (chunks : List (List Char)) :
    decodeStream chunks = (completeLines chunks).filterMap processLine := by
  unfold decodeStream completeLines
  rw [decodeLoop_eq chunks [] (by simp)]
  simp

theorem jsTrimL_nil_all_ws {l : List Char} (h : jsTrimL l = []) :
    ∀ c ∈ l, isJsWs c = true := by
  unfold jsTrimL at h
  rw [List.reverse_eq_nil_iff, List.dropWhile_eq_nil_iff] at h
  have hdrop : ∀ c ∈ l.dropWhile isJsWs, isJsWs c = true := by
    intro c hc
    exact h c (List.mem_reverse.mpr hc)
  intro c hc
  rw [← List.takeWhile_append_dropWhile isJsWs l] at hc
  rcases List.mem_append.mp hc with h1 | h1
  · exact List.mem_takeWhile_imp h1
  · exact hdrop c h1

theorem data_line_trim_ne_nil {l : List Char} (hd : dataPref.isPrefixOf l) :
    ¬ jsTrimL l = [] := by
  intro hcontra
  rcases List.isPrefixOf_iff_prefix.mp hd with ⟨t, ht⟩
  have hdm : 'd' ∈ l := by
    rw [← ht]
    exact List.mem_append_left _ (by decide)
  have := jsTrimL_nil_all_ws hcontra 'd' hdm
  simp [isJsWs] at this

theorem data_line_not_event {l : List Char} (hd : dataPref.isPrefixOf l) :
    ¬ (eventPref.isPrefixOf l = true) := by
  intro he
  rcases List.isPrefixOf_iff_prefix.mp hd with ⟨t1, ht1⟩
  rcases List.isPrefixOf_iff_prefix.mp he with ⟨t2, ht2⟩
  rw [← ht1] at ht2
  have : 'e' = 'd' := by
    have := congrArg (fun l => l.head?) ht2
    simp [eventPref, dataPref] at this
  simp at this

/-- The decoder's per-line behaviour coincides with the spec-side
user-visible text extraction. -/
theorem processLine_eq_spec (l : List Char) : processLine l = specOutputDelta l := by
  by_cases hd : dataPref.isPrefixOf l
  · unfold processLine specOutputDelta
    rw [if_neg (data_line_trim_ne_nil hd), if_neg (data_line_not_event hd),
      if_pos hd]
    have hdp : (!dataPref.isPrefixOf l) = false := by rw [hd]; rfl
    rw [hdp]
    simp only [Bool.false_eq_true, if_false]
    by_cases hdone : jsTrimL (l.drop 6) = donePayload
    · rw [if_pos hdone, hdone]
      have hnp : parseJson donePayload = none := rfl
      rw [hnp]
    · rw [if_neg hdone]
      cases parseJson (jsTrimL (l.drop 6)) <;> rfl
  · unfold processLine specOutputDelta
    have hdp : dataPref.isPrefixOf l = false := by
      revert hd
      cases dataPref.isPrefixOf l <;> simp
    rw [hdp]
    simp only [Bool.not_false, if_true, Bool.false_eq_true, if_false]
    split <;> try rfl
    split <;> rfl

theorem processLine_funeq : processLine = specOutputDelta :=
  funext processLine_eq_spec

/-- C1 is false on the code: for the stream consisting of a single
`response.reasoning_summary_text.delta` event with the non-empty delta
`"hi"` (and no output-text deltas at all), the decoder emits nothing — the
reasoning delta is logged only and never surfaced, so there is no fallback
to reasoning text. -/
theorem c1_counterexample :
    parseJson (jsTrimL (c1Chunk.drop 6)) =
      some (JsonVal.obj
        [(("type").data, JsonVal.str reasoningTypeStr),
         (("delta").data, JsonVal.str ("hi").data)]) ∧
    jsTruthy (JsonVal.str ("hi").data) = true ∧
    decodeStream [c1Chunk] = [] ∧
    decodeStream [c1Chunk] ≠ [JsonVal.str ("hi").data] := by
  refine ⟨rfl, rfl, rfl, ?_⟩
  intro h
  have : ([] : List JsonVal) = [JsonVal.str ("hi").data] := h
  simp at this

/-- C1 amended: the decoder never falls back to reasoning-summary deltas —
a stream none of whose complete lines carries an output-text delta event
(in particular a stream containing only reasoning-summary delta events)
emits nothing at all. -/
theorem c1_amended (chunks : List (List Char))
    (h : (completeLines chunks).all (fun l => (specOutputDelta l).isNone)) :
    decodeStream chunks = [] := by
  rw [decodeStream_eq_completeLines, processLine_funeq,
    List.filterMap_eq_nil_iff]
  intro l hl
  have := List.all_eq_true.mp h l hl
  exact Option.isNone_iff_eq_none.mp this

theorem c1_witness : decodeStream [c1Chunk] = [] :=
  c1_amended [c1Chunk] (by decide)

/-- C5: for every stream — in particular one containing both
`response.output_text.delta` and `response.reasoning_summary_text.delta`
events with non-empty deltas — the emitted sequence is exactly the
output-text deltas of its complete lines (the spec-side extraction
`specOutputDelta`); reasoning-summary deltas are never emitted since a
value whose `type` is the reasoning tag is not the output tag. -/
theorem c5_only_output_deltas :
    (∀ chunks, decodeStream chunks =
      (completeLines chunks).filterMap specOutputDelta) ∧
    (∀ l v, dataPref.isPrefixOf l →
      parseJson (jsTrimL (l.drop 6)) = some v →
      typeIs v reasoningTypeStr = true →
      processLine l = none) := by
  constructor
  · intro chunks
    rw [decodeStream_eq_completeLines, processLine_funeq]
  · intro l v hd hp hr
    have hout : typeIs v outputTypeStr = false := by
      unfold typeIs at hr ⊢
      rcases hf : getField v (("type").data) with _ | w
      · rw [hf] at hr
      · rw [hf] at hr
        cases w with
        | str s =>
          have hs : s = reasoningTypeStr := eq_of_beq hr
          show (s == outputTypeStr) = false
          rw [hs]
          decide
        | null => rfl
        | bool b => rfl
        | num n => rfl
        | arr a => rfl
        | obj o => rfl
    rw [processLine_eq_spec]
    unfold specOutputDelta
    rw [if_pos hd, hp]
    show (if (typeIs v outputTypeStr && truthyO (getField v (("delta").data))) = true
          then getField v (("delta").data) else none) = none
    rw [hout]
    simp

theorem c5_witness :
    decodeStream [c5Chunk] = (completeLines [c5Chunk]).filterMap specOutputDelta ∧
    processLine (("data: \x7b\"type\":\"response.reasoning_summary_text.delta\",\"delta\":\"r\"\x7d").data) = none := by
  constructor
  · exact c5_only_output_deltas.1 [c5Chunk]
  · exact c5_only_output_deltas.2 _
      (JsonVal.obj
        [(("type").data, JsonVal.str reasoningTypeStr),
         (("delta").data, JsonVal.str ("r").data)])
      (by decide) rfl rfl

theorem splitNl_cons_of_noNl {a : List Char} (b : List Char) (h : '\n' ∉ a) :
    splitNl (a ++ '\n' :: b) = a :: splitNl b := by
  have hlast : lastSeg a = a := by
    show ((splitNl a).getLast?).getD [] = a
    rw [noNl_splitNl h]
    rfl
  have hnl : splitNl ('\n' :: b) = [] :: splitNl b := by
    simp [splitNl]
  rw [splitNl_append a ('\n' :: b), noNl_splitNl h, hnl, hlast]
  simp

/-- C6: one line of invalid JSON between two valid `data: ` lines is
skipped (the per-frame parse failure is caught, never propagated — the
decoder is a total function into the emitted list) and the deltas of both
valid lines are emitted, in arrival order. -/
theorem c6_bad_frame_skipped (l1 lb l2 : List Char) (d1 d2 : JsonVal)
    (h1 : processLine l1 = some d1)
    (h2 : processLine l2 = some d2)
    (hbd : dataPref.isPrefixOf lb)
    (hbp : parseJson (jsTrimL (lb.drop 6)) = none)
    (n1 : '\n' ∉ l1) (nb : '\n' ∉ lb) (n2 : '\n' ∉ l2) :
    decodeStream [l1 ++ '\n' :: (lb ++ '\n' :: (l2 ++ ['\n']))] = [d1, d2] := by
  have hlb : processLine lb = none := by
    rw [processLine_eq_spec]
    unfold specOutputDelta
    rw [if_pos hbd, hbp]
  rw [decodeStream_eq_completeLines]
  unfold completeLines
  have hfl : ([l1 ++ '\n' :: (lb ++ '\n' :: (l2 ++ ['\n']))] : List (List Char)).flatten
      = l1 ++ '\n' :: (lb ++ '\n' :: (l2 ++ '\n' :: ([] : List Char))) := by
    simp
  rw [hfl, splitNl_cons_of_noNl _ n1, splitNl_cons_of_noNl _ nb,
    splitNl_cons_of_noNl _ n2]
  show ((l1 :: lb :: l2 :: splitNl []).dropLast).filterMap processLine = [d1, d2]
  have hsp : splitNl ([] : List Char) = [[]] := rfl
  rw [hsp]
  show (([l1, lb, l2, []] : List (List Char)).dropLast).filterMap processLine = [d1, d2]
  have hdl : ([l1, lb, l2, []] : List (List Char)).dropLast = [l1, lb, l2] := rfl
  rw [hdl, List.filterMap_cons_some h1, List.filterMap_cons_none hlb,
    List.filterMap_cons_some h2]
  rfl

theorem c6_witness :
    decodeStream [c6Line1 ++ '\n' :: (c6LineBad ++ '\n' :: (c6Line2 ++ ['\n']))]
      = [JsonVal.str ("A").data, JsonVal.str ("B").data] :=
  c6_bad_frame_skipped c6Line1 c6LineBad c6Line2
    (JsonVal.str ("A").data) (JsonVal.str ("B").data)
    rfl rfl (by decide) rfl (by decide) (by decide) (by decide)

/-- C7: the decoder's output is exactly the per-line processing of the
complete lines of the whole finite chunk sequence — it terminates with the
stream and needs no `[DONE]`; and a `[DONE]` line is a per-frame skip:
lines (and hence chunks) after it are processed exactly as those before. -/
theorem c7_termination_done_sentinel :
    (∀ chunks, decodeStream chunks =
      (completeLines chunks).filterMap processLine) ∧
    (∀ la lb : List (List Char),
      (la ++ doneLine :: lb).filterMap processLine =
        la.filterMap processLine ++ lb.filterMap processLine) := by
  constructor
  · exact decodeStream_eq_completeLines
  · intro la lb
    have hdone : processLine doneLine = none := rfl
    rw [List.filterMap_append, List.filterMap_cons_none hdone]

/-! Resource release (claim C8). -/

theorem emitBudget_no_release :
    ∀ (ds : List JsonVal) (b : Option Nat),
      ((emitBudget b ds).1).countP isRelease = 0 := by
  intro ds
  induction ds with
  | nil => intro b; rfl
  | cons d ds ih =>
    intro b
    match b with
    | none =>
      show ((match emitBudget none ds with
        | (evs, b2, fl) => (SseEv.emitEv d :: evs, b2, fl)).1).countP isRelease = 0
      rcases h : emitBudget none ds with ⟨evs, b2, fl⟩
      have hevs : evs.countP isRelease = 0 := by
        have := ih none
        rw [h] at this
        exact this
      rw [List.countP_cons_of_neg _ _ (by simp [isRelease])]
      exact hevs
    | some 0 => rfl
    | some (n + 1) =>
      show ((match emitBudget (some n) ds with
        | (evs, b2, fl) => (SseEv.emitEv d :: evs, b2, fl)).1).countP isRelease = 0
      rcases h : emitBudget (some n) ds with ⟨evs, b2, fl⟩
      have hevs : evs.countP isRelease = 0 := by
        have := ih (some n)
        rw [h] at this
        exact this
      rw [List.countP_cons_of_neg _ _ (by simp [isRelease])]
      exact hevs

theorem sseLoop_no_release :
    ∀ (reads : List ReadStep) (buffer : List Char) (b : Option Nat),
      (sseLoop buffer b reads).countP isRelease = 0 := by
  intro reads
  induction reads with
  | nil => intro buffer b; rfl
  | cons r rest ih =>
    intro buffer b
    cases r with
    | errR => rfl
    | chunkR c =>
      show (match emitBudget b
          (((splitNl (buffer ++ c)).dropLast).filterMap processLine) with
        | (evs, _, true) => SseEv.readEv :: evs ++ [SseEv.cancelExit]
        | (evs, b2, false) =>
          SseEv.readEv :: evs ++
            sseLoop (((splitNl (buffer ++ c)).getLast?).getD []) b2 rest).countP
          isRelease = 0
      rcases h : emitBudget b
          (((splitNl (buffer ++ c)).dropLast).filterMap processLine)
        with ⟨evs, b2, fl⟩
      have hevs : evs.countP isRelease = 0 := by
        have := emitBudget_no_release
          (((splitNl (buffer ++ c)).dropLast).filterMap processLine) b
        rw [h] at this
        exact this
      cases fl with
      | true =>
        show (SseEv.readEv :: evs ++ [SseEv.cancelExit]).countP isRelease = 0
        simp [List.countP_cons, List.countP_append, isRelease, hevs]
      | false =>
        show (SseEv.readEv :: evs ++
          sseLoop (((splitNl (buffer ++ c)).getLast?).getD []) b2 rest).countP
            isRelease = 0
        simp [List.countP_cons, List.countP_append, isRelease, hevs, ih]

/-- C8: on every exit path of the decoding loop — end of stream, a
transport error, and cancellation by the caller after any number of
consumed chunks — exactly one `releaseLock` happens, and it is the last
event before control returns. -/
theorem c8_release_on_all_paths (reads : List ReadStep) (budget : Option Nat) :
    (sseRunTrace reads budget).getLast? = some SseEv.releaseEv ∧
    (sseRunTrace reads budget).countP isRelease = 1 := by
  constructor
  · unfold sseRunTrace
    exact List.getLast?_concat _
  · unfold sseRunTrace
    rw [List.countP_append, sseLoop_no_release]
    rfl

/-! ## Claim C10: the parameter-type split of the required-field check -/

/-- C10: the required-field check runs only for string parameters — a
parameter already arriving as a non-null object is used as the
response_format directly with no validation at all; and for strings a
present-but-falsy `type` (the JS check is `!parsedJson.type`) is rejected
as missing. -/
theorem c10_object_param_unvalidated :
    (∀ v, processFullResponseFormat (FFParam.pobj v) = Except.ok v) ∧
    (∀ s st v, repairPipeline s = some (st, v) → isObjLike v = true →
      truthyO (getField v (("type").data)) = false →
      processFullResponseFormat (FFParam.pstr s) =
        Except.error FFErr.missingFields) := by
  constructor
  · intro v
    rfl
  · intro s st v hp hobj hty
    show (match repairPipeline s with
      | none => Except.error FFErr.parseFailed
      | some (_, v) =>
        if (!isObjLike v) = true then Except.error FFErr.notObject
        else if (!(truthyO (getField v (("type").data)) &&
                   truthyO (getField v (("json_schema").data)))) = true then
          Except.error FFErr.missingFields
        else Except.ok v) = Except.error FFErr.missingFields
    rw [hp]
    show (if (!isObjLike v) = true then Except.error FFErr.notObject
      else if (!(truthyO (getField v (("type").data)) &&
                 truthyO (getField v (("json_schema").data)))) = true then
        Except.error FFErr.missingFields
      else Except.ok v) = Except.error FFErr.missingFields
    rw [hobj, hty]
    rfl

theorem c10_witness :
    processFullResponseFormat (FFParam.pobj (JsonVal.str ("x").data)) =
      Except.ok (JsonVal.str ("x").data) ∧
    processFullResponseFormat (FFParam.pstr c10Str) =
      Except.error FFErr.missingFields :=
  ⟨c10_object_param_unvalidated.1 (JsonVal.str ("x").data),
   c10_object_param_unvalidated.2 c10Str Stage.direct c10Val rfl rfl rfl⟩

/-- C4 is false on the code: the input `\x7b\x7d\x7dx` reaches the
balancing stage (cleansing and compression leave it unchanged and it does
not parse) with one more closing than opening brace, yet the balancing
stage strips nothing — the trailing-run regex `/\x7d+$/` does not match a
string that does not end in a closing brace, so the result is not brought
down to the balanced count. -/
theorem c4_counterexample :
    cleanse c4Ex = c4Ex ∧
    parseJson c4Ex = none ∧
    compressStage c4Ex = c4Ex ∧
    c4Ex.count cbr = c4Ex.count obr + 1 ∧
    fixBrackets (fixBraces c4Ex) = c4Ex ∧
    (fixBrackets (fixBraces c4Ex)).count cbr ≠
      (fixBrackets (fixBraces c4Ex)).count obr :=
  ⟨rfl, rfl, rfl, rfl, rfl, by decide⟩

/-- C4 amended: when opens exceed closes (for braces and brackets), exactly
the deficit of closing characters is appended at the end.  When closes
exceed opens, the maximal trailing run of closing braces is replaced by as
many closing braces as there are opens — which strips exactly the excess
only when all closing braces are trailing; a string not ending in a
closing brace is left unchanged.  The two concrete examples of the claim do
hold: the schema string missing one closing brace is repaired and parses
with `type = "json_schema"`, and an input with exactly two extra trailing
closing braces loses exactly those two and parses. -/
theorem c4_amended :
    (∀ s : List Char, s.count obr > s.count cbr → s.count obk > s.count cbk →
      fixBrackets (fixBraces s) =
        (s ++ List.replicate (s.count obr - s.count cbr) cbr) ++
          List.replicate (s.count obk - s.count cbk) cbk) ∧
    (∀ s : List Char, s.count cbr > s.count obr → s.getLast? ≠ some cbr →
      fixBraces s = s) ∧
    (repairPipeline c4Missing = some (Stage.repaired, c4Val) ∧
     getField c4Val (("type").data) = some (JsonVal.str ("json_schema").data)) ∧
    (fixBraces (c4Base ++ [cbr, cbr]) = c4Base ∧
     (c4Base ++ [cbr, cbr]).length = c4Base.length + 2 ∧
     repairPipeline (c4Base ++ [cbr, cbr]) = some (Stage.repaired, c4Val)) := by
  refine ⟨?_, ?_, ⟨rfl, rfl⟩, ⟨rfl, rfl, rfl⟩⟩
  · intro s h1 h2
    have hb : fixBraces s = s ++ List.replicate (s.count obr - s.count cbr) cbr := by
      unfold fixBraces
      rw [if_pos h1]
    rw [hb]
    have hobk : (s ++ List.replicate (s.count obr - s.count cbr) cbr).count obk
        = s.count obk := by
      rw [List.count_append, List.count_replicate]
      simp [obk, cbr, Char.ofNat]
    have hcbk : (s ++ List.replicate (s.count obr - s.count cbr) cbr).count cbk
        = s.count cbk := by
      rw [List.count_append, List.count_replicate]
      simp [cbk, cbr, Char.ofNat]
    unfold fixBrackets
    rw [hobk, hcbk, if_pos h2]
  · intro s h1 h2
    unfold fixBraces
    rw [if_neg (by omega), if_pos h1]
    unfold replaceTrailingRun
    rw [if_neg h2]

theorem c4_witness :
    fixBrackets (fixBraces [obr, obk]) =
      (([obr, obk] ++ List.replicate 1 cbr) ++ List.replicate 1 cbk) ∧
    fixBraces c4Ex = c4Ex :=
  ⟨c4_amended.1 [obr, obk] (by decide) (by decide),
   c4_amended.2.1 c4Ex (by decide) (by decide)⟩

/-- C2 is false on the code: for `c2Input` the compression stage alone
already yields a string that parses as valid JSON, yet the brace/bracket
balancing stage is still applied and alters that string (the counts count
braces inside string literals).  The pipeline does end up returning the
compression parse — but only through the final fallback, after balancing
has been applied, not because balancing was skipped. -/
theorem c2_counterexample :
    parseJson (cleanse c2Input) = none ∧
    parseJson (compressStage (cleanse c2Input)) = some c2Val ∧
    fixBrackets (fixBraces (compressStage (cleanse c2Input))) ≠
      compressStage (cleanse c2Input) ∧
    repairPipeline c2Input = some (Stage.repaired, c2Val) :=
  ⟨rfl, rfl, by decide, rfl⟩

/-- C2 amended: the cleansed direct parse runs first and short-circuits
every repair stage; once it fails, compression and balancing are both
applied unconditionally — there is no parse test between them, and
balancing may alter a string that already parses after compression — and
the pipeline's result is the parse of the repaired string, falling back to
the compressed string (whose parse then wins) when every repair fails to
parse. -/
theorem c2_amended :
    (∀ s v, parseJson (cleanse s) = some v →
      repairPipeline s = some (Stage.direct, v)) ∧
    (∀ s, parseJson (cleanse s) = none →
      repairPipeline s =
        (parseJson (validateAndFixJsonStructure (compressStage (cleanse s)))).map
          (fun v => (Stage.repaired, v))) ∧
    (∀ js v, parseJson (fixBrackets (fixBraces js)) = none →
      parseJson (advancedJsonFix (fixBrackets (fixBraces js))) = none →
      parseJson js = some v →
      parseJson (validateAndFixJsonStructure js) = some v) := by
  refine ⟨?_, ?_, ?_⟩
  · intro s v h
    unfold repairPipeline
    rw [h]
  · intro s h
    unfold repairPipeline
    rw [h]
    cases parseJson (validateAndFixJsonStructure (compressStage (cleanse s))) <;> rfl
  · intro js v h1 h2 h3
    unfold validateAndFixJsonStructure
    rw [h1]
    rw [h2]
    exact h3

theorem c2_witness :
    repairPipeline (("\x7b\"a\":1\x7d").data) =
      some (Stage.direct, JsonVal.obj [(("a").data, JsonVal.num ("1").data)]) ∧
    repairPipeline c2Input =
      (parseJson (validateAndFixJsonStructure (compressStage (cleanse c2Input)))).map
        (fun v => (Stage.repaired, v)) ∧
    parseJson (validateAndFixJsonStructure (compressStage (cleanse c2Input))) =
      some c2Val :=
  ⟨c2_amended.1 (("\x7b\"a\":1\x7d").data) _ rfl,
   c2_amended.2.1 c2Input rfl,
   c2_amended.2.2 (compressStage (cleanse c2Input)) c2Val rfl rfl rfl⟩

/-- C3 is false on the code: when every repair fails, the string handed
back for the caller's re-parse is the cleansed-and-compressed variant, not
the caller's original, unmodified input — `validateAndFixJsonStructure`
returns its own argument, which is already the compressed string. -/
theorem c3_counterexample :
    parseJson (cleanse c3Input) = none ∧
    repairPipeline c3Input = none ∧
    validateAndFixJsonStructure (compressStage (cleanse c3Input)) =
      compressStage (cleanse c3Input) ∧
    validateAndFixJsonStructure (compressStage (cleanse c3Input)) ≠ c3Input :=
  ⟨rfl, rfl, rfl, by decide⟩

/-- C3 amended: when the balanced string and the advanced fix both fail to
parse, `validateAndFixJsonStructure` returns its own argument unchanged —
the cleansed-and-compressed string, on which the caller then re-attempts
the parse; when that parse also fails, the pipeline fails (the `JSON.parse`
exception reaches the surrounding catch). -/
theorem c3_amended (s : List Char)
    (h0 : parseJson (cleanse s) = none)
    (h1 : parseJson (fixBrackets (fixBraces (compressStage (cleanse s)))) = none)
    (h2 : parseJson (advancedJsonFix
      (fixBrackets (fixBraces (compressStage (cleanse s))))) = none) :
    validateAndFixJsonStructure (compressStage (cleanse s)) =
      compressStage (cleanse s) ∧
    (parseJson (compressStage (cleanse s)) = none → repairPipeline s = none) := by
  have hfix : validateAndFixJsonStructure (compressStage (cleanse s)) =
      compressStage (cleanse s) := by
    unfold validateAndFixJsonStructure
    rw [h1, h2]
  refine ⟨hfix, ?_⟩
  intro h3
  unfold repairPipeline
  rw [h0, hfix, h3]

theorem c3_witness :
    validateAndFixJsonStructure (compressStage (cleanse c3Input)) =
      compressStage (cleanse c3Input) ∧
    repairPipeline c3Input = none :=
  ⟨(c3_amended c3Input rfl rfl rfl).1, (c3_amended c3Input rfl rfl rfl).2 rfl⟩

/-! ## Well-formedness and the serializer round-trip (claim C9) -/

theorem isDigit_toNat {c : Char} (h : c.isDigit = true) :
    48 ≤ c.toNat ∧ c.toNat ≤ 57 := by
  simp only [Char.isDigit, Bool.and_eq_true, decide_eq_true_eq] at h
  exact ⟨UInt32.le_toNat_of_le (by norm_num) h.1,
    UInt32.toNat_le_of_le (by norm_num) h.2⟩

theorem char_ne_of_toNat_ne {c d : Char} (h : c.toNat ≠ d.toNat) : c ≠ d :=
  fun he => h (he ▸ rfl)

theorem noExt_of_goodFollow {r : List Char} (h : goodFollow r = true) :
    noExt r = true := by
  cases r with
  | nil => rfl
  | cons c t =>
    simp only [goodFollow, Bool.or_eq_true] at h
    rcases h with (h | h) | h <;>
      (have hc := eq_of_beq h; subst hc; rfl)

theorem headDigit_false_of_noExt {r : List Char} (h : noExt r = true) :
    headDigit r = false := by
  cases r with
  | nil => rfl
  | cons c t =>
    simp only [noExt, Bool.not_eq_eq_eq_not, Bool.not_true, Bool.or_eq_false_iff] at h
    simp only [headDigit]
    exact h.1.1.1

theorem numStart_not_ws {c : Char} (h : c = '-' ∨ c.isDigit = true) :
    isJsonWs c = false ∧ c ≠ '"' ∧ c ≠ obr ∧ c ≠ obk ∧ c ≠ 'n' ∧ c ≠ 't' ∧
      c ≠ 'f' := by
  rcases h with h | h
  · subst h
    exact ⟨rfl, by decide, by decide, by decide, by decide, by decide, by decide⟩
  · have hb := isDigit_toNat h
    refine ⟨?_, ?_, ?_, ?_, ?_, ?_, ?_⟩
    · simp only [isJsonWs, Bool.or_eq_false_iff]
      refine ⟨⟨⟨?_, ?_⟩, ?_⟩, ?_⟩ <;>
        (rw [beq_eq_false_iff_ne]; apply char_ne_of_toNat_ne; simp; omega)
    all_goals (apply char_ne_of_toNat_ne; simp [obr, obk, Char.ofNat]; omega)

theorem spanDigits_append {d r : List Char} (hd : ∀ c ∈ d, c.isDigit = true)
    (hr : headDigit r = false) : spanDigits (d ++ r) = (d, r) := by
  induction d with
  | nil =>
    simp only [List.nil_append, spanDigits]
    cases r with
    | nil => rfl
    | cons c t =>
      simp only [headDigit] at hr
      rw [List.takeWhile_cons_of_neg (by simp [hr]),
        List.dropWhile_cons_of_neg (by simp [hr])]
  | cons c d ih =>
    have hc : c.isDigit = true := hd c (List.mem_cons_self c d)
    have ih2 := ih (fun x hx => hd x (List.mem_cons_of_mem c hx))
    simp only [spanDigits, Prod.mk.injEq] at ih2
    simp only [List.cons_append, spanDigits, Prod.mk.injEq]
    constructor
    · rw [List.takeWhile_cons_of_pos hc, ih2.1]
    · rw [List.dropWhile_cons_of_pos hc, ih2.2]

theorem spanDigits_eq {l a b : List Char} (h : spanDigits l = (a, b)) :
    l = a ++ b ∧ (∀ c ∈ a, c.isDigit = true) ∧ headDigit b = false := by
  have h1 : a = l.takeWhile Char.isDigit := by
    have := congrArg Prod.fst h
    simp only [spanDigits] at this
    exact this.symm
  have h2 : b = l.dropWhile Char.isDigit := by
    have := congrArg Prod.snd h
    simp only [spanDigits] at this
    exact this.symm
  subst h1; subst h2
  refine ⟨(List.takeWhile_append_dropWhile _ _).symm, ?_, ?_⟩
  · intro c hc
    exact List.mem_takeWhile_imp hc
  · cases hb : l.dropWhile Char.isDigit with
    | nil => rfl
    | cons c t =>
      have := List.head?_dropWhile_not Char.isDigit l
      rw [hb] at this
      simp only [List.head?_cons, Option.some.injEq, forall_eq] at this
      simp only [headDigit]
      exact this

theorem lexIntPart_master {l i r : List Char} (h : lexIntPart l = some (i, r)) :
    l = i ++ r ∧ (∀ c ∈ i, c.isDigit = true) ∧
      (∃ c0 t0, i = c0 :: t0 ∧ c0.isDigit = true) ∧
      (∀ r', headDigit r' = false → lexIntPart (i ++ r') = some (i, r')) := by
  cases l with
  | nil => exact absurd h (by simp [lexIntPart])
  | cons c t =>
    simp only [lexIntPart] at h
    by_cases h0 : c = '0'
    · rw [if_pos h0] at h
      injection h with h1
      injection h1 with h2 h3
      subst h0
      refine ⟨?_, ?_, ?_, ?_⟩
      · rw [← h2, ← h3]; rfl
      · intro x hx
        rw [← h2] at hx
        simp only [List.mem_singleton] at hx
        subst hx; rfl
      · exact ⟨'0', [], h2.symm, rfl⟩
      · intro r' _
        rw [← h2]
        simp [lexIntPart]
    · rw [if_neg h0] at h
      by_cases hd : c.isDigit = true
      · rw [if_pos hd] at h
        injection h with h1
        injection h1 with h2 h3
        rcases hsp : spanDigits t with ⟨a, b⟩
        rw [hsp] at h2 h3
        obtain ⟨ht, ha, hb⟩ := spanDigits_eq hsp
        subst h2
        refine ⟨?_, ?_, ?_, ?_⟩
        · rw [ht, ← h3]; rfl
        · intro x hx
          rcases List.mem_cons.mp hx with hx | hx
          · subst hx; exact hd
          · exact ha x hx
        · exact ⟨c, a, rfl, hd⟩
        · intro r' hr'
          show lexIntPart (c :: (a ++ r')) = some (c :: a, r')
          simp only [lexIntPart, if_neg h0, if_pos hd,
            spanDigits_append ha hr']
      · rw [if_neg hd] at h
        exact absurd h (by simp)

theorem digit_not_sign {d : Char} (h : d.isDigit = true) :
    (d == '+' || d == '-') = false := by
  have hb := isDigit_toNat h
  simp only [Bool.or_eq_false_iff, beq_eq_false_iff_ne]
  constructor <;> (apply char_ne_of_toNat_ne; simp; omega)

theorem numChar_of_digit {d : Char} (h : d.isDigit = true) : numChar d = true := by
  simp [numChar, h]

theorem lexExpPart_stop (acc2 r' : List Char) (hr : noExt r' = true) :
    lexExpPart acc2 r' = some (acc2, r') := by
  cases r' with
  | nil => rfl
  | cons c t =>
    simp only [noExt, Bool.not_eq_eq_eq_not, Bool.not_true,
      Bool.or_eq_false_iff] at hr
    simp only [lexExpPart]
    rw [if_neg (by simp [hr.1.2, hr.2])]

theorem lexExpPart_master {acc l out rest : List Char}
    (h : lexExpPart acc l = some (out, rest)) :
    ∃ mid, out = acc ++ mid ∧ l = mid ++ rest ∧
      (mid = [] ∨ ∃ c t, mid = c :: t ∧ (c == 'e' || c == 'E') = true) ∧
      (∀ c ∈ mid, numChar c = true) ∧
      (∀ acc2 r', noExt r' = true →
        lexExpPart acc2 (mid ++ r') = some (acc2 ++ mid, r')) := by
  cases l with
  | nil =>
    simp only [lexExpPart, Option.some.injEq, Prod.mk.injEq] at h
    obtain ⟨h1, h2⟩ := h
    refine ⟨[], by simp [h1.symm], by simp [h2.symm], Or.inl rfl, by simp,
      fun acc2 r' hr => ?_⟩
    simpa using lexExpPart_stop acc2 r' hr
  | cons c r =>
    by_cases he : (c == 'e' || c == 'E') = true
    · cases r with
      | nil => simp [lexExpPart, he] at h
      | cons s r2 =>
        by_cases hs : (s == '+' || s == '-') = true
        · rcases hsp : spanDigits r2 with ⟨ds, r3⟩
          cases ds with
          | nil => simp [lexExpPart, he, hs, hsp] at h
          | cons d dt =>
            simp only [lexExpPart, if_pos he, if_pos hs, hsp,
              Option.some.injEq, Prod.mk.injEq] at h
            obtain ⟨h1, h2⟩ := h
            obtain ⟨hr2, hds, _⟩ := spanDigits_eq hsp
            refine ⟨c :: s :: d :: dt, h1.symm, ?_,
              Or.inr ⟨c, _, rfl, he⟩, ?_, ?_⟩
            · rw [hr2, ← h2]
              rfl
            · intro x hx
              rcases List.mem_cons.mp hx with hx | hx
              · subst hx
                rcases Bool.or_eq_true_iff.mp he with h3 | h3 <;>
                  (have h9 := eq_of_beq h3; subst h9; rfl)
              · rcases List.mem_cons.mp hx with hx | hx
                · subst hx
                  rcases Bool.or_eq_true_iff.mp hs with h3 | h3 <;>
                    (have h9 := eq_of_beq h3; subst h9; rfl)
                · exact numChar_of_digit (hds x hx)
            · intro acc2 r' hr'
              show lexExpPart acc2 (c :: (s :: ((d :: dt) ++ r'))) =
                some (acc2 ++ c :: s :: d :: dt, r')
              simp only [lexExpPart, if_pos he, if_pos hs,
                spanDigits_append hds (headDigit_false_of_noExt hr')]
        · rcases hsp : spanDigits (s :: r2) with ⟨ds, r3⟩
          cases ds with
          | nil => simp [lexExpPart, he, hs, hsp] at h
          | cons d dt =>
            simp only [lexExpPart, if_pos he, if_neg hs, hsp,
              Option.some.injEq, Prod.mk.injEq] at h
            obtain ⟨h1, h2⟩ := h
            obtain ⟨hr2, hds, _⟩ := spanDigits_eq hsp
            have hd : d.isDigit = true := hds d (List.mem_cons_self d dt)
            refine ⟨c :: d :: dt, h1.symm, ?_, Or.inr ⟨c, _, rfl, he⟩, ?_, ?_⟩
            · show c :: (s :: r2) = c :: ((d :: dt) ++ rest)
              rw [hr2, ← h2]
            · intro x hx
              rcases List.mem_cons.mp hx with hx | hx
              · subst hx
                rcases Bool.or_eq_true_iff.mp he with h3 | h3 <;>
                  (have h9 := eq_of_beq h3; subst h9; rfl)
              · exact numChar_of_digit (hds x hx)
            · intro acc2 r' hr'
              show lexExpPart acc2 (c :: ((d :: dt) ++ r')) =
                some (acc2 ++ c :: d :: dt, r')
              simp only [lexExpPart, if_pos he,
                spanDigits_append hds (headDigit_false_of_noExt hr')]
              rw [List.cons_append]
              show (if (d == '+' || d == '-') = true then
                  match spanDigits (dt ++ r') with
                  | ([], _) => none
                  | (ds, r3) => some (acc2 ++ c :: d :: ds, r3)
                else some (acc2 ++ c :: d :: dt, r')) =
                some (acc2 ++ c :: d :: dt, r')
              rw [if_neg (by simp [digit_not_sign hd])]
    · simp only [lexExpPart, if_neg he, Option.some.injEq, Prod.mk.injEq] at h
      obtain ⟨h1, h2⟩ := h
      refine ⟨[], by simp [h1.symm], by simp [h2.symm], Or.inl rfl, by simp,
        fun acc2 r' hr => ?_⟩
      simpa using lexExpPart_stop acc2 r' hr

theorem lexFracExp_master {acc l out rest : List Char}
    (h : lexFracExp acc l = some (out, rest)) :
    ∃ mid, out = acc ++ mid ∧ l = mid ++ rest ∧
      (mid = [] ∨ ∃ c t, mid = c :: t ∧
        (c = '.' ∨ (c == 'e' || c == 'E') = true)) ∧
      (∀ c ∈ mid, numChar c = true) ∧
      (∀ acc2 r', noExt r' = true →
        lexFracExp acc2 (mid ++ r') = some (acc2 ++ mid, r')) := by
  have stopCase : ∀ (acc2 : List Char) (r' : List Char), noExt r' = true →
      lexFracExp acc2 r' = some (acc2, r') := by
    intro acc2 r' hr
    cases r' with
    | nil => rfl
    | cons c t =>
      have hdot : ¬ c = '.' := by
        simp only [noExt, Bool.not_eq_eq_eq_not, Bool.not_true,
          Bool.or_eq_false_iff] at hr
        intro hc
        subst hc
        simp at hr
      simp only [lexFracExp, if_neg hdot]
      exact lexExpPart_stop acc2 (c :: t) hr
  cases l with
  | nil =>
    simp only [lexFracExp] at h
    obtain ⟨mid, h1, h2, _, h4, h5⟩ := lexExpPart_master h
    have hmid : mid = [] ∧ rest = [] := by
      constructor
      · exact (List.append_eq_nil.mp h2.symm).1
      · exact (List.append_eq_nil.mp h2.symm).2
    obtain ⟨hm1, hm2⟩ := hmid
    subst hm1
    refine ⟨[], h1, by simp [hm2], Or.inl rfl, by simp, fun acc2 r' hr => ?_⟩
    simpa using stopCase acc2 r' hr
  | cons c r =>
    by_cases hdot : c = '.'
    · subst hdot
      rcases hsp : spanDigits r with ⟨ds, r2⟩
      cases ds with
      | nil => simp [lexFracExp, hsp] at h
      | cons d dt =>
        simp only [lexFracExp, if_pos rfl, hsp] at h
        obtain ⟨emid, h1, h2, h3, h4, h5⟩ := lexExpPart_master h
        obtain ⟨hr, hds, _⟩ := spanDigits_eq hsp
        have hd : d.isDigit = true := hds d (List.mem_cons_self d dt)
        refine ⟨'.' :: ((d :: dt) ++ emid), ?_, ?_, Or.inr ⟨'.', _, rfl, Or.inl rfl⟩,
          ?_, ?_⟩
        · rw [h1]
          simp
        · rw [hr, h2]
          simp
        · intro x hx
          rcases List.mem_cons.mp hx with hx | hx
          · subst hx; rfl
          · rcases List.mem_append.mp hx with hx | hx
            · exact numChar_of_digit (hds x hx)
            · exact h4 x hx
        · intro acc2 r' hr'
          have hspr : spanDigits ((d :: dt) ++ (emid ++ r')) =
              (d :: dt, emid ++ r') := by
            apply spanDigits_append hds
            rcases h3 with h3 | ⟨ce, te, he1, he2⟩
            · subst h3
              exact headDigit_false_of_noExt hr'
            · subst he1
              simp only [List.cons_append, headDigit]
              rcases Bool.or_eq_true_iff.mp he2 with h6 | h6 <;>
                (have h9 := eq_of_beq h6; subst h9; rfl)
          show lexFracExp acc2 ('.' :: ((d :: dt) ++ emid ++ r')) =
            some (acc2 ++ '.' :: ((d :: dt) ++ emid), r')
          simp only [lexFracExp, if_pos rfl, List.append_assoc, hspr]
          have := h5 (acc2 ++ '.' :: d :: dt) r' hr'
          rw [this]
          simp
    · simp only [lexFracExp, if_neg hdot] at h
      obtain ⟨emid, h1, h2, h3, h4, h5⟩ := lexExpPart_master h
      rcases h3 with h3 | ⟨ce, te, he1, he2⟩
      · subst h3
        simp only [List.nil_append] at h2
        refine ⟨[], by simp [h1], by simp [h2], Or.inl rfl, by simp,
          fun acc2 r' hr => ?_⟩
        simpa using stopCase acc2 r' hr
      · subst he1
        refine ⟨ce :: te, h1, h2, Or.inr ⟨ce, te, rfl, Or.inr he2⟩, h4,
          fun acc2 r' hr => ?_⟩
        have hene : ¬ ce = '.' := by
          rcases Bool.or_eq_true_iff.mp he2 with h6 | h6 <;>
            (have h9 := eq_of_beq h6; subst h9; decide)
        show lexFracExp acc2 (ce :: (te ++ r')) = some (acc2 ++ ce :: te, r')
        simp only [lexFracExp, if_neg hene]
        exact h5 acc2 r' hr

theorem headDigit_false_of_fracMid {fmid r' : List Char}
    (h3 : fmid = [] ∨ ∃ c t, fmid = c :: t ∧
      (c = '.' ∨ (c == 'e' || c == 'E') = true))
    (hr' : noExt r' = true) : headDigit (fmid ++ r') = false := by
  rcases h3 with h3 | ⟨cf, tf, hf1, hf2⟩
  · subst h3
    exact headDigit_false_of_noExt hr'
  · subst hf1
    simp only [List.cons_append, headDigit]
    rcases hf2 with hf2 | hf2
    · subst hf2; rfl
    · rcases Bool.or_eq_true_iff.mp hf2 with h6 | h6 <;>
        (have h9 := eq_of_beq h6; subst h9; rfl)

theorem lexNumber_master {l lex rest : List Char}
    (h : lexNumber l = some (lex, rest)) :
    l = lex ++ rest ∧
    (∃ c t, lex = c :: t ∧ (c = '-' ∨ c.isDigit = true)) ∧
    (∀ c ∈ lex, numChar c = true) ∧
    (∀ r', noExt r' = true → lexNumber (lex ++ r') = some (lex, r')) := by
  cases l with
  | nil => simp [lexNumber] at h
  | cons c r =>
    by_cases hneg : c = '-'
    · subst hneg
      rcases hi : lexIntPart r with _ | ⟨i, r1⟩
      · simp [lexNumber, hi] at h
      · simp only [lexNumber, if_pos rfl, hi] at h
        obtain ⟨hri, hdi, ⟨c0, t0, hi0, hd0⟩, hreplayI⟩ := lexIntPart_master hi
        obtain ⟨fmid, h1, h2, h3, h4, h5⟩ := lexFracExp_master h
        subst h1
        refine ⟨?_, ⟨'-', i ++ fmid, by simp, Or.inl rfl⟩, ?_, ?_⟩
        · rw [hri, h2]
          simp
        · intro x hx
          rw [List.cons_append] at hx
          rcases List.mem_cons.mp hx with hx | hx
          · subst hx; rfl
          · rcases List.mem_append.mp hx with hx | hx
            · exact numChar_of_digit (hdi x hx)
            · exact h4 x hx
        · intro r' hr'
          have hheadf := headDigit_false_of_fracMid h3 hr'
          show lexNumber ('-' :: ((i ++ fmid) ++ r')) =
            some (('-' :: i) ++ fmid, r')
          simp only [lexNumber, if_pos rfl, if_true, List.append_assoc,
            hreplayI (fmid ++ r') hheadf]
          exact h5 ('-' :: i) r' hr'
    · rcases hi : lexIntPart (c :: r) with _ | ⟨i, r1⟩
      · simp [lexNumber, hneg, hi] at h
      · simp only [lexNumber, if_neg hneg, hi] at h
        obtain ⟨hri, hdi, ⟨c0, t0, hi0, hd0⟩, hreplayI⟩ := lexIntPart_master hi
        obtain ⟨fmid, h1, h2, h3, h4, h5⟩ := lexFracExp_master h
        subst h1
        refine ⟨?_, ⟨c0, t0 ++ fmid, by rw [hi0]; simp, Or.inr hd0⟩, ?_, ?_⟩
        · rw [hri, h2]
          simp
        · intro x hx
          rcases List.mem_append.mp hx with hx | hx
          · exact numChar_of_digit (hdi x hx)
          · exact h4 x hx
        · intro r' hr'
          have hheadf := headDigit_false_of_fracMid h3 hr'
          have hc0 : ¬ c0 = '-' := by
            have hb := isDigit_toNat hd0
            apply char_ne_of_toNat_ne
            simp
            omega
          have hrepl := hreplayI (fmid ++ r') hheadf
          have hfr := h5 i r' hr'
          rw [hi0] at hrepl hfr
          show lexNumber ((i ++ fmid) ++ r') = some (i ++ fmid, r')
          rw [hi0]
          have hshape : ((c0 :: t0) ++ fmid) ++ r' = c0 :: ((t0 ++ fmid) ++ r') := by
            simp
          rw [hshape]
          simp only [lexNumber, if_neg hc0]
          have hshape2 : c0 :: ((t0 ++ fmid) ++ r') = (c0 :: t0) ++ (fmid ++ r') := by
            simp
          rw [hshape2, hrepl]
          exact hfr

theorem hexVal_hexCh : ∀ n, n < 16 → hexVal (hexCh n) = some n := by decide

theorem parse_u_escape (a b : Nat) (ha : a < 16) (hb : b < 16)
    (fuel : Nat) (Y : List Char) :
    parseStringBodyGo (fuel + 1)
        ('\\' :: 'u' :: '0' :: '0' :: hexCh a :: hexCh b :: Y) =
      (parseStringBodyGo fuel Y).map
        (fun p => (Char.ofNat (16 * a + b) :: p.1, p.2)) := by
  show (match hexVal '0', hexVal '0', hexVal (hexCh a), hexVal (hexCh b) with
    | some x, some y, some z, some w =>
      (parseStringBodyGo fuel Y).map
        (fun p => (Char.ofNat (4096 * x + 256 * y + 16 * z + w) :: p.1, p.2))
    | _, _, _, _ => none) =
    (parseStringBodyGo fuel Y).map
      (fun p => (Char.ofNat (16 * a + b) :: p.1, p.2))
  rw [hexVal_hexCh a ha, hexVal_hexCh b hb]
  show (parseStringBodyGo fuel Y).map
      (fun p => (Char.ofNat (4096 * 0 + 256 * 0 + 16 * a + b) :: p.1, p.2)) = _
  norm_num

theorem escChar_decode (c : Char) (fuel : Nat) (Y : List Char) :
    parseStringBodyGo (fuel + 1) (escChar c ++ Y) =
      (parseStringBodyGo fuel Y).map (fun p => (c :: p.1, p.2)) := by
  by_cases h1 : c = '"'
  · subst h1; rfl
  · by_cases h2 : c = '\\'
    · subst h2; rfl
    · by_cases h8 : c.toNat = 8
      · have hc : c = Char.ofNat 8 := by rw [← Char.ofNat_toNat c, h8]
        subst hc; rfl
      · by_cases h9 : c.toNat = 9
        · have hc : c = Char.ofNat 9 := by rw [← Char.ofNat_toNat c, h9]
          subst hc; rfl
        · by_cases h10 : c.toNat = 10
          · have hc : c = Char.ofNat 10 := by rw [← Char.ofNat_toNat c, h10]
            subst hc; rfl
          · by_cases h12 : c.toNat = 12
            · have hc : c = Char.ofNat 12 := by rw [← Char.ofNat_toNat c, h12]
              subst hc; rfl
            · by_cases h13 : c.toNat = 13
              · have hc : c = Char.ofNat 13 := by
                  rw [← Char.ofNat_toNat c, h13]
                subst hc; rfl
              · by_cases h32 : c.toNat < 32
                · simp only [escChar, if_neg h1, if_neg h2, if_neg h8,
                    if_neg h9, if_neg h10, if_neg h12, if_neg h13, if_pos h32]
                  rw [List.cons_append, List.cons_append, List.cons_append,
                    List.cons_append, List.cons_append, List.cons_append,
                    List.nil_append]
                  rw [parse_u_escape (c.toNat / 16) (c.toNat % 16)
                    (by omega) (by omega) fuel Y]
                  simp only [Nat.div_add_mod, Char.ofNat_toNat]
                · simp only [escChar, if_neg h1, if_neg h2, if_neg h8,
                    if_neg h9, if_neg h10, if_neg h12, if_neg h13, if_neg h32]
                  simp only [List.cons_append, List.nil_append]
                  simp only [parseStringBodyGo, if_neg h1, if_neg h2,
                    if_neg h32]

theorem escBody_length (s : List Char) : s.length ≤ (escBody s).length := by
  induction s with
  | nil => simp [escBody]
  | cons c cs ih =>
    have hc : 1 ≤ (escChar c).length := by
      unfold escChar
      split_ifs <;> simp
    simp only [escBody, List.length_cons, List.length_append]
    omega

theorem parseStringBodyGo_escBody (s : List Char) :
    ∀ fuel rest, s.length + 1 ≤ fuel →
      parseStringBodyGo fuel (escBody s ++ '"' :: rest) = some (s, rest) := by
  induction s with
  | nil =>
    intro fuel rest h
    obtain ⟨f, rfl⟩ : ∃ f, fuel = f + 1 := ⟨fuel - 1, by omega⟩
    rfl
  | cons c cs ih =>
    intro fuel rest h
    obtain ⟨f, rfl⟩ : ∃ f, fuel = f + 1 := ⟨fuel - 1, by omega⟩
    show parseStringBodyGo (f + 1) ((escChar c ++ escBody cs) ++ '"' :: rest) =
      some (c :: cs, rest)
    rw [List.append_assoc, escChar_decode c f _,
      ih f rest (by simp only [List.length_cons] at h; omega)]
    rfl

theorem parseStringBody_escBody (s rest : List Char) :
    parseStringBody (escBody s ++ '"' :: rest) = some (s, rest) := by
  unfold parseStringBody
  apply parseStringBodyGo_escBody
  have h1 := escBody_length s
  simp only [List.length_append, List.length_cons]
  omega


theorem parseVal_succ (fuel : Nat) (l : List Char) :
    parseVal (fuel + 1) l = parseValCore fuel (skipWs l) := rfl

theorem parseMembers_succ (fuel : Nat) (l : List Char) :
    parseMembers (fuel + 1) l = parseMembersCore fuel (skipWs l) := rfl

theorem parseElems_succ (fuel : Nat) (l : List Char) :
    parseElems (fuel + 1) l = elemsStep fuel (parseVal fuel l) := rfl

theorem skipWs_cons_of_neg {c : Char} (l : List Char)
    (h : isJsonWs c = false) : skipWs (c :: l) = c :: l := by
  simp [skipWs, List.dropWhile_cons_of_neg, h]

theorem needV_pos (v : JsonVal) : 1 ≤ needV v := by
  cases v <;> simp [needV]

theorem needEs_pos (es : List JsonVal) : 1 ≤ needEs es := by
  cases es <;> simp [needEs]

theorem needMs_pos (ms : List (List Char × JsonVal)) : 1 ≤ needMs ms := by
  cases ms <;> simp [needMs]

theorem wfElems_mem {es : List JsonVal} {e : JsonVal} (hwf : wfElems es = true)
    (h : e ∈ es) : wfVal e = true := by
  induction es with
  | nil => cases h
  | cons x xs ih =>
    simp only [wfElems, Bool.and_eq_true] at hwf
    rcases List.mem_cons.mp h with h | h
    · subst h; exact hwf.1
    · exact ih hwf.2 h

theorem wfMems_mem {ms : List (List Char × JsonVal)} {m : List Char × JsonVal}
    (hwf : wfMems ms = true) (h : m ∈ ms) : wfVal m.2 = true := by
  induction ms with
  | nil => cases h
  | cons x xs ih =>
    simp only [wfMems, Bool.and_eq_true] at hwf
    rcases List.mem_cons.mp h with h | h
    · subst h; exact hwf.1
    · exact ih hwf.2 h

theorem serV_head {v : JsonVal} (hwf : wfVal v = true) :
    ∃ c t, serV v = c :: t ∧ isJsonWs c = false ∧ c ≠ cbk := by
  cases v with
  | null => exact ⟨'n', _, rfl, by decide, by decide⟩
  | bool b =>
    cases b
    · exact ⟨'f', _, rfl, by decide, by decide⟩
    · exact ⟨'t', _, rfl, by decide, by decide⟩
  | str s => exact ⟨'"', _, rfl, by decide, by decide⟩
  | arr es => exact ⟨obk, _, rfl, by decide, by decide⟩
  | obj ms => exact ⟨obr, _, rfl, by decide, by decide⟩
  | num l =>
    have hb : (lexNumber l == some (l, [])) = true := hwf
    obtain ⟨_, ⟨c0, t0, hl0, hc0⟩, _, _⟩ := lexNumber_master (eq_of_beq hb)
    subst hl0
    refine ⟨c0, t0, rfl, (numStart_not_ws hc0).1, ?_⟩
    have h93 : cbk.toNat = 93 := rfl
    rcases hc0 with h | h
    · subst h; decide
    · have hd := isDigit_toNat h
      apply char_ne_of_toNat_ne
      omega
theorem parse_roundtrip : ∀ fuel : Nat,
    (∀ v rest, wfVal v = true → needV v ≤ fuel → goodFollow rest = true →
      parseVal fuel (serV v ++ rest) = some (v, rest)) ∧
    (∀ es rest, es ≠ ([] : List JsonVal) → wfElems es = true →
      needEs es ≤ fuel → goodFollow rest = true →
      parseElems fuel (serElems es ++ cbk :: rest) = some (es, rest)) ∧
    (∀ ms rest, ms ≠ ([] : List (List Char × JsonVal)) → wfMems ms = true →
      needMs ms ≤ fuel → goodFollow rest = true →
      parseMembers fuel (serMems ms ++ cbr :: rest) = some (ms, rest)) := by
  intro fuel
  induction fuel with
  | zero =>
    exact ⟨fun v rest _ hneed _ =>
        absurd hneed (by have := needV_pos v; omega),
      fun es rest _ _ hneed _ =>
        absurd hneed (by have := needEs_pos es; omega),
      fun ms rest _ _ hneed _ =>
        absurd hneed (by have := needMs_pos ms; omega)⟩
  | succ fuel ih =>
    obtain ⟨ihV, ihE, ihM⟩ := ih
    refine ⟨?_, ?_, ?_⟩
    · intro v rest hwf hneed hgf
      cases v with
      | null => rfl
      | bool b => cases b <;> rfl
      | str s =>
        have hre : serV (JsonVal.str s) ++ rest =
            '"' :: (escBody s ++ '"' :: rest) := by simp [serV]
        rw [hre, parseVal_succ, skipWs_cons_of_neg _ (by decide)]
        show (parseStringBody (escBody s ++ '"' :: rest)).map
          (fun p => (JsonVal.str p.1, p.2)) = some (JsonVal.str s, rest)
        rw [parseStringBody_escBody]
        rfl
      | num l =>
        have hb : (lexNumber l == some (l, [])) = true := hwf
        obtain ⟨-, ⟨c0, t0, hl0, hc0⟩, -, hreplay⟩ :=
          lexNumber_master (eq_of_beq hb)
        subst hl0
        have hnum := hreplay rest (noExt_of_goodFollow hgf)
        obtain ⟨hws, hq, hbr, hbk, hn, ht, hf⟩ := numStart_not_ws hc0
        have hre : serV (JsonVal.num (c0 :: t0)) ++ rest =
            c0 :: (t0 ++ rest) := by simp [serV]
        rw [hre, parseVal_succ, skipWs_cons_of_neg _ hws]
        simp only [parseValCore]
        rw [if_neg hq, if_neg hbr, if_neg hbk, if_neg hn, if_neg ht, if_neg hf]
        have hcond : (c0 == '-' || c0.isDigit) = true := by
          rcases hc0 with h | h
          · subst h; rfl
          · simp [h]
        rw [if_pos hcond]
        rw [show c0 :: (t0 ++ rest) = (c0 :: t0) ++ rest from rfl, hnum]
        rfl
      | arr es =>
        cases es with
        | nil => rfl
        | cons e es' =>
          have hwfE : wfElems (e :: es') = true := hwf
          have hneedE : needEs (e :: es') ≤ fuel := by
            have hd : needV (JsonVal.arr (e :: es')) =
              needEs (e :: es') + 1 := rfl
            omega
          have hre : serV (JsonVal.arr (e :: es')) ++ rest =
              obk :: (serElems (e :: es') ++ cbk :: rest) := by simp [serV]
          rw [hre, parseVal_succ, skipWs_cons_of_neg _ (by decide)]
          show arrBody fuel (skipWs (serElems (e :: es') ++ cbk :: rest)) =
            some (JsonVal.arr (e :: es'), rest)
          obtain ⟨c, t, hse, hcws, hcbk⟩ :=
            serV_head (wfElems_mem hwfE (List.mem_cons_self e es'))
          have hhead : ∃ t', serElems (e :: es') ++ cbk :: rest = c :: t' := by
            cases es' with
            | nil => exact ⟨t ++ cbk :: rest, by simp [serElems, hse]⟩
            | cons e2 es2 =>
              exact ⟨(t ++ ',' :: serElems (e2 :: es2)) ++ cbk :: rest,
                by simp [serElems, hse]⟩
          obtain ⟨t', hct⟩ := hhead
          rw [hct, skipWs_cons_of_neg _ hcws]
          simp only [arrBody]
          rw [if_neg hcbk, ← hct]
          rw [ihE (e :: es') rest (List.cons_ne_nil e es') hwfE hneedE hgf]
          rfl
      | obj ms =>
        cases ms with
        | nil => rfl
        | cons m ms' =>
          have hwfM : wfMems (m :: ms') = true := hwf
          have hneedM : needMs (m :: ms') ≤ fuel := by
            have hd : needV (JsonVal.obj (m :: ms')) =
              needMs (m :: ms') + 1 := rfl
            omega
          have hre : serV (JsonVal.obj (m :: ms')) ++ rest =
              obr :: (serMems (m :: ms') ++ cbr :: rest) := by simp [serV]
          rw [hre, parseVal_succ, skipWs_cons_of_neg _ (by decide)]
          show objBody fuel (skipWs (serMems (m :: ms') ++ cbr :: rest)) =
            some (JsonVal.obj (m :: ms'), rest)
          have hhead : ∃ t', serMems (m :: ms') ++ cbr :: rest = '"' :: t' := by
            obtain ⟨k, v2⟩ := m
            cases ms' with
            | nil =>
              exact ⟨(escBody k ++ '"' :: ':' :: serV v2) ++ cbr :: rest,
                by simp [serMems, serMem]⟩
            | cons m2 ms2 =>
              exact ⟨((escBody k ++ '"' :: ':' :: serV v2) ++
                  ',' :: serMems (m2 :: ms2)) ++ cbr :: rest,
                by simp [serMems, serMem]⟩
          obtain ⟨t', hct⟩ := hhead
          rw [hct, skipWs_cons_of_neg _ (by decide)]
          simp only [objBody]
          rw [if_neg (by decide : ¬ ('"' = cbr)), ← hct]
          rw [ihM (m :: ms') rest (List.cons_ne_nil m ms') hwfM hneedM hgf]
          rfl
    · intro es rest hne hwf hneed hgf
      cases es with
      | nil => exact absurd rfl hne
      | cons e es' =>
        have hwf2 : (wfVal e && wfElems es') = true := hwf
        rw [Bool.and_eq_true] at hwf2
        have hneed2 : max (needV e) (needEs es') + 1 ≤ fuel + 1 := hneed
        rw [parseElems_succ]
        cases es' with
        | nil =>
          have hre : serElems [e] ++ cbk :: rest = serV e ++ cbk :: rest := by
            simp [serElems]
          rw [hre, ihV e (cbk :: rest) hwf2.1
            (by omega) rfl]
          simp only [elemsStep]
          rw [skipWs_cons_of_neg _ (by decide)]
          simp only [elemsAfter]
          rw [if_neg (by decide : ¬ (cbk = ',')), if_pos trivial]
        | cons e2 es2 =>
          have hre : serElems (e :: e2 :: es2) ++ cbk :: rest =
              serV e ++ ',' :: (serElems (e2 :: es2) ++ cbk :: rest) := by
            simp [serElems]
          rw [hre, ihV e (',' :: (serElems (e2 :: es2) ++ cbk :: rest))
            hwf2.1 (by omega) rfl]
          simp only [elemsStep]
          rw [skipWs_cons_of_neg _ (by decide)]
          simp only [elemsAfter]
          rw [if_pos trivial]
          rw [ihE (e2 :: es2) rest (List.cons_ne_nil e2 es2)
            hwf2.2 (by omega) hgf]
          rfl
    · intro ms rest hne hwf hneed hgf
      cases ms with
      | nil => exact absurd rfl hne
      | cons m ms' =>
        obtain ⟨k, v⟩ := m
        have hwf2 : (wfVal v && wfMems ms') = true := hwf
        rw [Bool.and_eq_true] at hwf2
        have hneed2 : max (needV v) (needMs ms') + 1 ≤ fuel + 1 := hneed
        rw [parseMembers_succ]
        cases ms' with
        | nil =>
          have hre : serMems [(k, v)] ++ cbr :: rest =
              '"' :: (escBody k ++ '"' :: (':' :: (serV v ++ cbr :: rest))) := by
            simp [serMems, serMem]
          rw [hre, skipWs_cons_of_neg _ (by decide)]
          simp only [parseMembersCore]
          rw [if_pos trivial, parseStringBody_escBody]
          simp only [matchKey]
          rw [skipWs_cons_of_neg _ (by decide)]
          simp only [afterKey]
          rw [if_pos trivial]
          rw [ihV v (cbr :: rest) hwf2.1 (by omega) rfl]
          simp only [afterColon]
          rw [skipWs_cons_of_neg _ (by decide)]
          simp only [afterVal]
          rw [if_neg (by decide : ¬ (cbr = ',')), if_pos trivial]
        | cons m2 ms2 =>
          have hre : serMems ((k, v) :: m2 :: ms2) ++ cbr :: rest =
              '"' :: (escBody k ++ '"' :: (':' :: (serV v ++
                ',' :: (serMems (m2 :: ms2) ++ cbr :: rest)))) := by
            simp [serMems, serMem]
          rw [hre, skipWs_cons_of_neg _ (by decide)]
          simp only [parseMembersCore]
          rw [if_pos trivial, parseStringBody_escBody]
          simp only [matchKey]
          rw [skipWs_cons_of_neg _ (by decide)]
          simp only [afterKey]
          rw [if_pos trivial]
          rw [ihV v (',' :: (serMems (m2 :: ms2) ++ cbr :: rest))
            hwf2.1 (by omega) rfl]
          simp only [afterColon]
          rw [skipWs_cons_of_neg _ (by decide)]
          simp only [afterVal]
          rw [if_pos trivial]
          rw [ihM (m2 :: ms2) rest (List.cons_ne_nil m2 ms2)
            hwf2.2 (by omega) hgf]
          rfl

theorem serV_len_le_serElems {e : JsonVal} {es : List JsonVal} (h : e ∈ es) :
    (serV e).length ≤ (serElems es).length := by
  induction es with
  | nil => cases h
  | cons x xs ih =>
    rcases List.mem_cons.mp h with h | h
    · subst h
      cases xs with
      | nil =>
        simp only [serElems, le_refl]
      | cons y ys =>
        simp only [serElems, List.length_append, List.length_cons]
        omega
    · cases xs with
      | nil => cases h
      | cons y ys =>
        have h2 := ih h
        simp only [serElems, List.length_append, List.length_cons] at h2 ⊢
        omega

theorem serMem_len_le_serMems {m : List Char × JsonVal}
    {ms : List (List Char × JsonVal)} (h : m ∈ ms) :
    (serMem m).length ≤ (serMems ms).length := by
  induction ms with
  | nil => cases h
  | cons x xs ih =>
    rcases List.mem_cons.mp h with h | h
    · subst h
      cases xs with
      | nil =>
        simp only [serMems, le_refl]
      | cons y ys =>
        simp only [serMems, List.length_append, List.length_cons]
        omega
    · cases xs with
      | nil => cases h
      | cons y ys =>
        have h2 := ih h
        simp only [serMems, List.length_append, List.length_cons] at h2 ⊢
        omega

theorem serV_len_le_serMem (m : List Char × JsonVal) :
    (serV m.2).length ≤ (serMem m).length := by
  obtain ⟨k, v⟩ := m
  simp only [serMem, List.length_cons, List.length_append]
  omega

theorem mem_serElems {c : Char} {es : List JsonVal} (h : c ∈ serElems es) :
    c = ',' ∨ ∃ e ∈ es, c ∈ serV e := by
  induction es with
  | nil => simp [serElems] at h
  | cons e t iht =>
    cases t with
    | nil =>
      have h' : c ∈ serV e := h
      exact Or.inr ⟨e, List.mem_cons_self e [], h'⟩
    | cons e2 t2 =>
      have h' : c ∈ serV e ++ ',' :: serElems (e2 :: t2) := h
      rcases List.mem_append.mp h' with h1 | h1
      · exact Or.inr ⟨e, List.mem_cons_self _ _, h1⟩
      · rcases List.mem_cons.mp h1 with h2 | h2
        · exact Or.inl h2
        · rcases iht h2 with h3 | ⟨x, hx, hc⟩
          · exact Or.inl h3
          · exact Or.inr ⟨x, List.mem_cons_of_mem _ hx, hc⟩

theorem mem_serMems {c : Char} {ms : List (List Char × JsonVal)}
    (h : c ∈ serMems ms) : c = ',' ∨ ∃ m ∈ ms, c ∈ serMem m := by
  induction ms with
  | nil => simp [serMems] at h
  | cons m t iht =>
    cases t with
    | nil =>
      have h' : c ∈ serMem m := h
      exact Or.inr ⟨m, List.mem_cons_self m [], h'⟩
    | cons m2 t2 =>
      have h' : c ∈ serMem m ++ ',' :: serMems (m2 :: t2) := h
      rcases List.mem_append.mp h' with h1 | h1
      · exact Or.inr ⟨m, List.mem_cons_self _ _, h1⟩
      · rcases List.mem_cons.mp h1 with h2 | h2
        · exact Or.inl h2
        · rcases iht h2 with h3 | ⟨x, hx, hc⟩
          · exact Or.inl h3
          · exact Or.inr ⟨x, List.mem_cons_of_mem _ hx, hc⟩

theorem mem_escBody {c : Char} {s : List Char} (h : c ∈ escBody s) :
    ∃ x ∈ s, c ∈ escChar x := by
  induction s with
  | nil => simp [escBody] at h
  | cons x xs ih =>
    have h' : c ∈ escChar x ++ escBody xs := h
    rcases List.mem_append.mp h' with h1 | h1
    · exact ⟨x, List.mem_cons_self x xs, h1⟩
    · obtain ⟨y, hy, hc⟩ := ih h1
      exact ⟨y, List.mem_cons_of_mem x hy, hc⟩

theorem mem_serMem {c : Char} {m : List Char × JsonVal} (h : c ∈ serMem m) :
    c = '"' ∨ c = ':' ∨ (∃ x ∈ m.1, c ∈ escChar x) ∨ c ∈ serV m.2 := by
  obtain ⟨k, v⟩ := m
  have h' : c ∈ '"' :: (escBody k ++ '"' :: ':' :: serV v) := h
  rcases List.mem_cons.mp h' with h1 | h1
  · exact Or.inl h1
  · rcases List.mem_append.mp h1 with h2 | h2
    · exact Or.inr (Or.inr (Or.inl (mem_escBody h2)))
    · rcases List.mem_cons.mp h2 with h3 | h3
      · exact Or.inl h3
      · rcases List.mem_cons.mp h3 with h4 | h4
        · exact Or.inr (Or.inl h4)
        · exact Or.inr (Or.inr (Or.inr h4))

theorem hexCh_ne_cr {n : Nat} (h : n < 16) : hexCh n ≠ '\r' := by
  interval_cases n <;> decide

theorem escChar_noCR (x : Char) : '\r' ∉ escChar x := by
  unfold escChar
  split_ifs with h1 h2 h3 h4 h5 h6 h7 h8
  · decide
  · decide
  · decide
  · decide
  · decide
  · decide
  · decide
  · intro hm
    simp only [List.mem_cons, List.not_mem_nil, or_false] at hm
    rcases hm with h | h | h | h | h | h
    · exact absurd h (by decide)
    · exact absurd h (by decide)
    · exact absurd h (by decide)
    · exact absurd h (by decide)
    · exact hexCh_ne_cr (by omega) h.symm
    · exact hexCh_ne_cr (by omega) h.symm
  · intro hm
    simp only [List.mem_singleton] at hm
    subst hm
    exact h8 (by decide)

theorem crlfToLfGo_id : ∀ (fuel : Nat) (l : List Char), '\r' ∉ l →
    crlfToLfGo fuel l = l := by
  intro fuel
  induction fuel with
  | zero => intro l _; rfl
  | succ n ih =>
    intro l hl
    cases l with
    | nil => rfl
    | cons c rest =>
      have hc : ¬ c = '\r' := fun h => hl (h ▸ List.mem_cons_self c rest)
      simp only [crlfToLfGo]
      rw [if_neg hc, ih rest (fun h => hl (List.mem_cons_of_mem c h))]

theorem crlfToLf_id {l : List Char} (h : '\r' ∉ l) : crlfToLf l = l :=
  crlfToLfGo_id _ l h

theorem cleanse_eq_self {l : List Char}
    (h1 : l.dropWhile isJsWs = l)
    (h2 : l.reverse.dropWhile isJsWs = l.reverse)
    (h3 : ∀ c ∈ l, isZeroWidth c = false)
    (h4 : '\r' ∉ l) :
    cleanse l = l := by
  have htrim : jsTrimL l = l := by
    unfold jsTrimL
    rw [h1, h2, List.reverse_reverse]
  have hfilt : l.filter (fun c => !isZeroWidth c) = l := by
    apply List.filter_eq_self.mpr
    intro c hc
    simp [h3 c hc]
  unfold cleanse
  rw [htrim, hfilt, crlfToLf_id h4]
  have hmap : l.map (fun c => if c = '\r' then '\n' else c) = l.map id :=
    List.map_congr_left (fun c hc => by
      have hcr : ¬ c = '\r' := fun h => h4 (h ▸ hc)
      rw [if_neg hcr]
      rfl)
  rw [hmap, List.map_id]

theorem needLe_aux : ∀ n v, (serV v).length ≤ n →
    needV v ≤ (serV v).length + 1 := by
  intro n
  induction n with
  | zero =>
    intro v h
    cases v with
    | arr es => exact absurd h (by simp [serV])
    | obj ms => exact absurd h (by simp [serV])
    | null => show 1 ≤ _ + 1; omega
    | bool b => show 1 ≤ _ + 1; omega
    | num l => show 1 ≤ _ + 1; omega
    | str s => show 1 ≤ _ + 1; omega
  | succ n ih =>
    intro v h
    cases v with
    | null => show 1 ≤ _ + 1; omega
    | bool b => show 1 ≤ _ + 1; omega
    | num l => show 1 ≤ _ + 1; omega
    | str s => show 1 ≤ _ + 1; omega
    | arr es =>
      have hlen : (serV (JsonVal.arr es)).length = (serElems es).length + 2 := by
        simp [serV]
      have inner : ∀ es2 : List JsonVal, (serElems es2).length ≤ n →
          needEs es2 ≤ (serElems es2).length + 2 := by
        intro es2
        induction es2 with
        | nil => intro _; show 1 ≤ _ + 2; omega
        | cons e t iht =>
          intro hlen2
          have hev : needV e ≤ (serV e).length + 1 := by
            apply ih
            have := serV_len_le_serElems (List.mem_cons_self e t)
            omega
          cases t with
          | nil =>
            have hd1 : needEs [e] = max (needV e) (needEs []) + 1 := rfl
            have hd2 : needEs ([] : List JsonVal) = 1 := rfl
            have hd3 : (serElems [e]).length = (serV e).length := by
              simp [serElems]
            omega
          | cons e2 t2 =>
            have hd1 : needEs (e :: e2 :: t2) =
              max (needV e) (needEs (e2 :: t2)) + 1 := rfl
            have hd3 : (serElems (e :: e2 :: t2)).length =
                (serV e).length + 1 + (serElems (e2 :: t2)).length := by
              simp only [serElems, List.length_append, List.length_cons]
              omega
            have ht2 : needEs (e2 :: t2) ≤ (serElems (e2 :: t2)).length + 2 := by
              apply iht
              omega
            omega
      have hE : needEs es ≤ (serElems es).length + 2 := by
        apply inner
        omega
      have hd : needV (JsonVal.arr es) = needEs es + 1 := rfl
      omega
    | obj ms =>
      have hlen : (serV (JsonVal.obj ms)).length = (serMems ms).length + 2 := by
        simp [serV]
      have inner : ∀ ms2 : List (List Char × JsonVal),
          (serMems ms2).length ≤ n →
          needMs ms2 ≤ (serMems ms2).length + 2 := by
        intro ms2
        induction ms2 with
        | nil => intro _; show 1 ≤ _ + 2; omega
        | cons m t iht =>
          intro hlen2
          have hev : needV m.2 ≤ (serV m.2).length + 1 := by
            apply ih
            have ha := serMem_len_le_serMems (List.mem_cons_self m t)
            have hb := serV_len_le_serMem m
            omega
          have hvm : (serV m.2).length ≤ (serMem m).length := serV_len_le_serMem m
          cases t with
          | nil =>
            have hd1 : needMs [m] = max (needV m.2) (needMs []) + 1 := rfl
            have hd2 : needMs ([] : List (List Char × JsonVal)) = 1 := rfl
            have hd3 : (serMems [m]).length = (serMem m).length := by
              simp [serMems]
            omega
          | cons m2 t2 =>
            have hd1 : needMs (m :: m2 :: t2) =
              max (needV m.2) (needMs (m2 :: t2)) + 1 := rfl
            have hd3 : (serMems (m :: m2 :: t2)).length =
                (serMem m).length + 1 + (serMems (m2 :: t2)).length := by
              simp only [serMems, List.length_append, List.length_cons]
              omega
            have ht2 : needMs (m2 :: t2) ≤ (serMems (m2 :: t2)).length + 2 := by
              apply iht
              omega
            omega
      have hM : needMs ms ≤ (serMems ms).length + 2 := by
        apply inner
        omega
      have hd : needV (JsonVal.obj ms) = needMs ms + 1 := rfl
      omega

theorem serV_noCR_aux : ∀ n v, (serV v).length ≤ n → wfVal v = true →
    '\r' ∉ serV v := by
  intro n
  induction n with
  | zero =>
    intro v h _ hm
    have h0 : serV v = [] := List.eq_nil_of_length_eq_zero (Nat.le_zero.mp h)
    rw [h0] at hm
    cases hm
  | succ n ih =>
    intro v h hwf hm
    cases v with
    | null => exact absurd hm (by decide)
    | bool b =>
      cases b
      · exact absurd hm (by decide)
      · exact absurd hm (by decide)
    | num l =>
      have hb : (lexNumber l == some (l, [])) = true := hwf
      obtain ⟨-, -, hchars, -⟩ := lexNumber_master (eq_of_beq hb)
      have hmem : '\r' ∈ l := hm
      exact absurd (hchars '\r' hmem) (by decide)
    | str s =>
      have hm' : '\r' ∈ '"' :: (escBody s ++ ['"']) := hm
      rcases List.mem_cons.mp hm' with h1 | h1
      · exact absurd h1 (by decide)
      · rcases List.mem_append.mp h1 with h2 | h2
        · obtain ⟨x, -, hc⟩ := mem_escBody h2
          exact escChar_noCR x hc
        · exact absurd h2 (by decide)
    | arr es =>
      have hwfE : wfElems es = true := hwf
      have hm' : '\r' ∈ obk :: (serElems es ++ [cbk]) := hm
      rcases List.mem_cons.mp hm' with h1 | h1
      · exact absurd h1 (by decide)
      · rcases List.mem_append.mp h1 with h2 | h2
        · rcases mem_serElems h2 with h3 | ⟨e, he, hc⟩
          · exact absurd h3 (by decide)
          · refine ih e ?_ (wfElems_mem hwfE he) hc
            have h4 := serV_len_le_serElems he
            have h5 : (serV (JsonVal.arr es)).length =
              (serElems es).length + 2 := by simp [serV]
            omega
        · exact absurd h2 (by decide)
    | obj ms =>
      have hwfM : wfMems ms = true := hwf
      have hm' : '\r' ∈ obr :: (serMems ms ++ [cbr]) := hm
      rcases List.mem_cons.mp hm' with h1 | h1
      · exact absurd h1 (by decide)
      · rcases List.mem_append.mp h1 with h2 | h2
        · rcases mem_serMems h2 with h3 | ⟨m, hmem2, hc⟩
          · exact absurd h3 (by decide)
          · rcases mem_serMem hc with h4 | h4 | ⟨x, -, hx⟩ | h4
            · exact absurd h4 (by decide)
            · exact absurd h4 (by decide)
            · exact escChar_noCR x hx
            · refine ih m.2 ?_ (wfMems_mem hwfM hmem2) h4
              have h5 := serMem_len_le_serMems hmem2
              have h6 := serV_len_le_serMem m
              have h7 : (serV (JsonVal.obj ms)).length =
                (serMems ms).length + 2 := by simp [serV]
              omega
        · exact absurd h2 (by decide)

theorem parse_wf : ∀ fuel : Nat,
    (∀ l v r, parseVal fuel l = some (v, r) → wfVal v = true) ∧
    (∀ l ms r, parseMembers fuel l = some (ms, r) → wfMems ms = true) ∧
    (∀ l es r, parseElems fuel l = some (es, r) → wfElems es = true) := by
  intro fuel
  induction fuel with
  | zero =>
    exact ⟨fun l v r h => absurd h (by simp [parseVal]),
      fun l ms r h => absurd h (by simp [parseMembers]),
      fun l es r h => absurd h (by simp [parseElems])⟩
  | succ fuel ih =>
    obtain ⟨ihV, ihM, ihE⟩ := ih
    refine ⟨?_, ?_, ?_⟩
    · intro l v r h
      rw [parseVal_succ] at h
      rcases hws : skipWs l with _ | ⟨c, r1⟩ <;> rw [hws] at h
      · simp [parseValCore] at h
      · simp only [parseValCore] at h
        by_cases h1 : c = '"'
        · rw [if_pos h1] at h
          rcases hps : parseStringBody r1 with _ | ⟨s, r2⟩ <;> rw [hps] at h
          · simp at h
          · simp only [Option.map_some', Option.some.injEq,
              Prod.mk.injEq] at h
            obtain ⟨hv, -⟩ := h
            subst hv
            rfl
        · rw [if_neg h1] at h
          by_cases h2 : c = obr
          · rw [if_pos h2] at h
            rcases hws2 : skipWs r1 with _ | ⟨c2, r2⟩ <;> rw [hws2] at h
            · simp [objBody] at h
            · simp only [objBody] at h
              by_cases h3 : c2 = cbr
              · rw [if_pos h3, Option.some.injEq, Prod.mk.injEq] at h
                obtain ⟨hv, -⟩ := h
                subst hv
                rfl
              · rw [if_neg h3] at h
                rcases hpm : parseMembers fuel (c2 :: r2) with _ | ⟨ms, r3⟩ <;>
                  rw [hpm] at h
                · simp at h
                · simp only [Option.map_some', Option.some.injEq,
                    Prod.mk.injEq] at h
                  obtain ⟨hv, -⟩ := h
                  subst hv
                  exact ihM _ _ _ hpm
          · rw [if_neg h2] at h
            by_cases h3 : c = obk
            · rw [if_pos h3] at h
              rcases hws2 : skipWs r1 with _ | ⟨c2, r2⟩ <;> rw [hws2] at h
              · simp [arrBody] at h
              · simp only [arrBody] at h
                by_cases h4 : c2 = cbk
                · rw [if_pos h4, Option.some.injEq, Prod.mk.injEq] at h
                  obtain ⟨hv, -⟩ := h
                  subst hv
                  rfl
                · rw [if_neg h4] at h
                  rcases hpe : parseElems fuel (c2 :: r2) with _ | ⟨es, r3⟩ <;>
                    rw [hpe] at h
                  · simp at h
                  · simp only [Option.map_some', Option.some.injEq,
                      Prod.mk.injEq] at h
                    obtain ⟨hv, -⟩ := h
                    subst hv
                    exact ihE _ _ _ hpe
            · rw [if_neg h3] at h
              by_cases h4 : c = 'n'
              · rw [if_pos h4] at h
                by_cases h5 : r1.take 3 = ['u', 'l', 'l']
                · rw [if_pos h5, Option.some.injEq, Prod.mk.injEq] at h
                  obtain ⟨hv, -⟩ := h
                  subst hv
                  rfl
                · rw [if_neg h5] at h
                  exact absurd h (by simp)
              · rw [if_neg h4] at h
                by_cases h5 : c = 't'
                · rw [if_pos h5] at h
                  by_cases h6 : r1.take 3 = ['r', 'u', 'e']
                  · rw [if_pos h6, Option.some.injEq, Prod.mk.injEq] at h
                    obtain ⟨hv, -⟩ := h
                    subst hv
                    rfl
                  · rw [if_neg h6] at h
                    exact absurd h (by simp)
                · rw [if_neg h5] at h
                  by_cases h6 : c = 'f'
                  · rw [if_pos h6] at h
                    by_cases h7 : r1.take 4 = ['a', 'l', 's', 'e']
                    · rw [if_pos h7, Option.some.injEq, Prod.mk.injEq] at h
                      obtain ⟨hv, -⟩ := h
                      subst hv
                      rfl
                    · rw [if_neg h7] at h
                      exact absurd h (by simp)
                  · rw [if_neg h6] at h
                    by_cases h7 : (c == '-' || c.isDigit) = true
                    · rw [if_pos h7] at h
                      rcases hlex : lexNumber (c :: r1) with _ | ⟨lex, r2⟩ <;>
                        rw [hlex] at h
                      · simp at h
                      · simp only [Option.map_some', Option.some.injEq,
                          Prod.mk.injEq] at h
                        obtain ⟨hv, -⟩ := h
                        subst hv
                        obtain ⟨-, -, -, hreplay⟩ := lexNumber_master hlex
                        have hrep := hreplay [] rfl
                        rw [List.append_nil] at hrep
                        show (lexNumber lex == some (lex, [])) = true
                        rw [hrep]
                        simp
                    · rw [if_neg h7] at h
                      exact absurd h (by simp)
    · intro l ms r h
      rw [parseMembers_succ] at h
      rcases hws : skipWs l with _ | ⟨c, r1⟩ <;> rw [hws] at h
      · simp [parseMembersCore] at h
      · simp only [parseMembersCore] at h
        by_cases h1 : c = '"'
        · rw [if_pos h1] at h
          rcases hps : parseStringBody r1 with _ | ⟨k, r2⟩ <;> rw [hps] at h
          · simp [matchKey] at h
          · simp only [matchKey] at h
            rcases hws2 : skipWs r2 with _ | ⟨c1, r3⟩ <;> rw [hws2] at h
            · simp [afterKey] at h
            · simp only [afterKey] at h
              by_cases h2 : c1 = ':'
              · rw [if_pos h2] at h
                rcases hpv : parseVal fuel r3 with _ | ⟨v, r4⟩ <;>
                  rw [hpv] at h
                · simp [afterColon] at h
                · simp only [afterColon] at h
                  rcases hws3 : skipWs r4 with _ | ⟨c2, r5⟩ <;> rw [hws3] at h
                  · simp [afterVal] at h
                  · simp only [afterVal] at h
                    by_cases h3 : c2 = ','
                    · rw [if_pos h3] at h
                      rcases hpm : parseMembers fuel r5 with _ | ⟨ms2, r6⟩ <;>
                        rw [hpm] at h
                      · simp at h
                      · simp only [Option.map_some', Option.some.injEq,
                          Prod.mk.injEq] at h
                        obtain ⟨hv, -⟩ := h
                        subst hv
                        show (wfVal v && wfMems ms2) = true
                        rw [ihV _ _ _ hpv, ihM _ _ _ hpm]
                        rfl
                    · rw [if_neg h3] at h
                      by_cases h4 : c2 = cbr
                      · rw [if_pos h4, Option.some.injEq, Prod.mk.injEq] at h
                        obtain ⟨hv, -⟩ := h
                        subst hv
                        show (wfVal v && wfMems []) = true
                        rw [ihV _ _ _ hpv]
                        rfl
                      · rw [if_neg h4] at h
                        exact absurd h (by simp)
              · rw [if_neg h2] at h
                exact absurd h (by simp)
        · rw [if_neg h1] at h
          exact absurd h (by simp)
    · intro l es r h
      rw [parseElems_succ] at h
      rcases hpv : parseVal fuel l with _ | ⟨v, r1⟩ <;> rw [hpv] at h
      · simp [elemsStep] at h
      · simp only [elemsStep] at h
        rcases hws : skipWs r1 with _ | ⟨c, r2⟩ <;> rw [hws] at h
        · simp [elemsAfter] at h
        · simp only [elemsAfter] at h
          by_cases h1 : c = ','
          · rw [if_pos h1] at h
            rcases hpe : parseElems fuel r2 with _ | ⟨es2, r3⟩ <;>
              rw [hpe] at h
            · simp at h
            · simp only [Option.map_some', Option.some.injEq,
                Prod.mk.injEq] at h
              obtain ⟨hv, -⟩ := h
              subst hv
              show (wfVal v && wfElems es2) = true
              rw [ihV _ _ _ hpv, ihE _ _ _ hpe]
              rfl
          · rw [if_neg h1] at h
            by_cases h2 : c = cbk
            · rw [if_pos h2, Option.some.injEq, Prod.mk.injEq] at h
              obtain ⟨hv, -⟩ := h
              subst hv
              show (wfVal v && wfElems []) = true
              rw [ihV _ _ _ hpv]
              rfl
            · rw [if_neg h2] at h
              exact absurd h (by simp)

theorem parseJson_wf {l : List Char} {v : JsonVal}
    (h : parseJson l = some v) : wfVal v = true := by
  unfold parseJson at h
  rcases hpv : parseVal (l.length + 2) l with _ | ⟨v2, rest⟩ <;> rw [hpv] at h
  · simp at h
  · have h2 : (if skipWs rest = [] then some v2 else none) = some v := h
    by_cases hr : skipWs rest = []
    · rw [if_pos hr, Option.some.injEq] at h2
      subst h2
      exact (parse_wf (l.length + 2)).1 _ _ _ hpv
    · rw [if_neg hr] at h2
      exact absurd h2 (by simp)

theorem parseJson_serV {v : JsonVal} (hwf : wfVal v = true) :
    parseJson (serV v) = some v := by
  have hneed : needV v ≤ (serV v).length + 2 := by
    have := needLe_aux (serV v).length v le_rfl
    omega
  have h := (parse_roundtrip ((serV v).length + 2)).1 v [] hwf hneed rfl
  rw [List.append_nil] at h
  unfold parseJson
  rw [h]
  rfl

theorem repairPipeline_wf {s : List Char} {st : Stage} {v : JsonVal}
    (h : repairPipeline s = some (st, v)) : wfVal v = true := by
  unfold repairPipeline at h
  rcases h1 : parseJson (cleanse s) with _ | v1 <;> rw [h1] at h
  · rcases h2 : parseJson (validateAndFixJsonStructure
        (compressStage (cleanse s))) with _ | v2 <;> rw [h2] at h
    · exact absurd h (by simp)
    · rw [Option.some.injEq, Prod.mk.injEq] at h
      obtain ⟨-, hv⟩ := h
      subst hv
      exact parseJson_wf h2
  · rw [Option.some.injEq, Prod.mk.injEq] at h
    obtain ⟨-, hv⟩ := h
    subst hv
    exact parseJson_wf h1

theorem serV_reparse {v : JsonVal} (hwf : wfVal v = true)
    (hobj : isObjLike v = true)
    (hzw : (serV v).all (fun c => !isZeroWidth c) = true) :
    repairPipeline (serV v) = some (Stage.direct, v) := by
  have hnoCR : '\r' ∉ serV v := serV_noCR_aux (serV v).length v le_rfl hwf
  have hzw2 : ∀ c ∈ serV v, isZeroWidth c = false := by
    intro c hc
    have := List.all_eq_true.mp hzw c hc
    simpa using this
  have hshape : ∃ a mid b, serV v = a :: (mid ++ [b]) ∧
      isJsWs a = false ∧ isJsWs b = false := by
    cases v with
    | arr es =>
      exact ⟨obk, serElems es, cbk, by simp [serV], by decide, by decide⟩
    | obj ms =>
      exact ⟨obr, serMems ms, cbr, by simp [serV], by decide, by decide⟩
    | null => exact absurd hobj (by decide)
    | bool b => exact absurd hobj (by simp [isObjLike])
    | num l => exact absurd hobj (by simp [isObjLike])
    | str s => exact absurd hobj (by simp [isObjLike])
  obtain ⟨a, mid, b, hser, ha, hb⟩ := hshape
  have h1 : (serV v).dropWhile isJsWs = serV v := by
    rw [hser, List.dropWhile_cons_of_neg (by simp [ha])]
  have h2 : (serV v).reverse.dropWhile isJsWs = (serV v).reverse := by
    rw [hser]
    rw [show (a :: (mid ++ [b])).reverse = b :: (mid.reverse ++ [a]) by simp]
    rw [List.dropWhile_cons_of_neg (by simp [hb])]
  have hcl : cleanse (serV v) = serV v := cleanse_eq_self h1 h2 hzw2 hnoCR
  unfold repairPipeline
  rw [hcl, parseJson_serV hwf]

/-- C9 counterexample: the pipeline parses `c9Input` into `c9Val`, whose
serialization contains a raw zero-width space; re-running the pipeline on
that serialization strips the character, leaving an empty (falsy)
`json_schema` string, and the required-field check now fails.  The claimed
unconditional idempotence is false. -/
theorem c9_counterexample :
    processFullResponseFormat (FFParam.pstr c9Input) = Except.ok c9Val ∧
      processFullResponseFormat (FFParam.pstr (serV c9Val)) =
        Except.error FFErr.missingFields :=
  ⟨rfl, rfl⟩

theorem ffOk_inv {s : List Char} {v : JsonVal}
    (h : processFullResponseFormat (FFParam.pstr s) = Except.ok v) :
    (∃ st, repairPipeline s = some (st, v)) ∧ isObjLike v = true ∧
      (truthyO (getField v ("type").data) &&
        truthyO (getField v ("json_schema").data)) = true := by
  simp only [processFullResponseFormat] at h
  rcases hrp : repairPipeline s with _ | ⟨st, v2⟩ <;> rw [hrp] at h
  · exact absurd h (by simp)
  · have h2 : (if !isObjLike v2 then Except.error FFErr.notObject
        else if !(truthyO (getField v2 ("type").data) &&
            truthyO (getField v2 ("json_schema").data)) then
          Except.error FFErr.missingFields
        else Except.ok v2) = Except.ok v := h
    by_cases hobj : isObjLike v2 = true
    · rw [hobj] at h2
      by_cases hf : (truthyO (getField v2 ("type").data) &&
          truthyO (getField v2 ("json_schema").data)) = true
      · rw [hf] at h2
        have h3 : (Except.ok v2 : Except FFErr JsonVal) = Except.ok v := h2
        rw [Except.ok.injEq] at h3
        subst h3
        exact ⟨⟨st, rfl⟩, hobj, hf⟩
      · rw [Bool.not_eq_true] at hf
        rw [hf] at h2
        exact absurd h2 (by simp)
    · rw [Bool.not_eq_true] at hobj
      rw [hobj] at h2
      exact absurd h2 (by simp)

/-- C9: the repair pipeline is deterministic (it is a function), and it is
idempotent in the claimed sense only under the proviso that the serialized
result contains no zero-width characters: if a string was repaired into a
successfully parsed response-format object whose serialization survives
the cleansing stage, re-running the pipeline on that serialization yields
the same object via a direct parse, with the required `type` and
`json_schema` fields intact.  Without the proviso the claim fails
(`c9_counterexample`). -/
theorem c9_amended (s : List Char) (v : JsonVal)
    (h1 : processFullResponseFormat (FFParam.pstr s) = Except.ok v)
    (h2 : (serV v).all (fun c => !isZeroWidth c) = true) :
    processFullResponseFormat (FFParam.pstr (serV v)) = Except.ok v := by
  obtain ⟨⟨st, hrp⟩, hobj, hfields⟩ := ffOk_inv h1
  have hwf := repairPipeline_wf hrp
  have hrp2 := serV_reparse hwf hobj h2
  simp only [processFullResponseFormat]
  rw [hrp2]
  show (if !isObjLike v then Except.error FFErr.notObject
    else if !(truthyO (getField v ("type").data) &&
        truthyO (getField v ("json_schema").data)) then
      Except.error FFErr.missingFields
    else Except.ok v) = Except.ok v
  rw [hobj, hfields]
  rfl

theorem c9_witness :
    processFullResponseFormat (FFParam.pstr (serV (JsonVal.obj
        [(("type").data, JsonVal.str ("a").data),
         (("json_schema").data, JsonVal.str ("b").data)]))) =
      Except.ok (JsonVal.obj [(("type").data, JsonVal.str ("a").data),
        (("json_schema").data, JsonVal.str ("b").data)]) :=
  c9_amended (("\x7b\"type\":\"a\",\"json_schema\":\"b\"\x7d").data) _ rfl rfl
